import Mathlib

/-!
# Verification of the cadoku service worker's versioned-cache protocol

This file is a shallow embedding of `src/public/sw.js` (the final, canonical
service-worker variant of the repository) together with proofs about the
claims of its specification.

Modelling conventions:

* JavaScript strings are modelled as `List Char` (`Str`).  JavaScript's
  default string comparison (used by `Array.prototype.sort`) compares
  UTF-16 code units; we compare Unicode code points (`Char.toNat`), which
  agrees with the source for all code points in the Basic Multilingual
  Plane.
* The Cache Storage API (`caches.keys/open/delete/match`, `cache.put`) is
  modelled as an explicit state `CacheState`: a list of caches in creation
  order, each a list of `(url, response)` entries.  Operations additionally
  return a log of `CacheOp` events so that theorems can speak about which
  namespaces were created or deleted and which entries were written.
* The network (`fetch`) is an oracle `Net := Str → Option Response`;
  `none` models a rejected fetch (network failure), `some r` a settled
  response (which may have a non-success status).
* `new URL(rel, base).href` is modelled on the fragment exercised by the
  worker: plain relative paths are resolved by appending to the base
  directory, host-relative paths by appending to the origin.  Dot-segment
  normalisation, query strings and percent-encoding are outside the model.
* The regular-expression matches of `fetchRemoteAssetList` and
  `getHighestCachedVersion` are embedded as executable scanners proved to
  implement exactly the leftmost-match semantics of the concrete patterns
  used by the source.
* `new Function("return " + arr)()` — the source's dynamic evaluation of
  the manifest's array slice — is modelled by a tokenizer and evaluator
  for the JavaScript fragment the slices can exercise here: array literals
  of string literals, non-negative integer literals and `+` chains, with
  JavaScript's `+` semantics (numeric addition, string concatenation, and
  string coercion of numbers).
-/

set_option maxRecDepth 4096

namespace SW

/-- JavaScript strings, as lists of characters. -/
abbrev Str := List Char

/-! ## String ordering (JS `<` on strings, `Array.prototype.sort`) -/

/-- Lexicographic less-or-equal on strings by code point, the order JS
`Array.prototype.sort` uses on its default (string) comparison. -/
def lexLe : Str → Str → Bool
  | [], _ => true
  | _ :: _, [] => false
  | a :: as, b :: bs =>
    if a.toNat < b.toNat then true
    else if b.toNat < a.toNat then false
    else lexLe as bs

/-! ## Literal stripping and the fundamentals-namespace regex

`getHighestCachedVersion` matches every cache name against
`^<prefix>(.+?)::fundamentals$`.  With both anchors present and a
fixed-length suffix, the capture is the uniquely determined middle of the
name; the lazy `.+?` additionally requires the middle to be non-empty and
(`.` without the `s` flag) to contain no line terminators. -/

/-- Strip an expected literal off the front of a list, returning the rest. -/
def stripLit : Str → Str → Option Str
  | [], rest => some rest
  | _ :: _, [] => none
  | l :: ls, c :: cs => if c = l then stripLit ls cs else none

/-- Strip a literal off the back of a list. -/
def stripSuf (suf l : Str) : Option Str :=
  (stripLit suf.reverse l.reverse).map List.reverse

/-- JavaScript line terminators, which `.` (without the `s` flag) refuses. -/
def isLineTerm (c : Char) : Bool :=
  c = '\n' || c = '\r' || c = '\u2028' || c = '\u2029'

/-- The cache-name constant `CACHE_PREFIX = "cadoku-cache:"` of the source
(renamed here; final cache names are this followed by the version and a
role suffix). -/
def CACHE_PFX : Str := "cadoku-cache:".toList

/-- Role suffix of a fundamentals cache name. -/
def fundSuf : Str := "::fundamentals".toList

/-- Role suffix of a pages cache name. -/
def pagesSuf : Str := "::pages".toList

/-- Name of the fundamentals cache of a version. -/
def fundName (v : Str) : Str := CACHE_PFX ++ v ++ fundSuf

/-- Name of the pages cache of a version. -/
def pagesName (v : Str) : Str := CACHE_PFX ++ v ++ pagesSuf

/-- The per-key regex test of `getHighestCachedVersion`:
`k.match(new RegExp('^' + escapeRegExp(CACHE_PREFIX) + '(.+?)::fundamentals$'))`,
returning the captured version component. -/
def extractFundVersion (k : Str) : Option Str :=
  (stripLit CACHE_PFX k).bind fun rest =>
    (stripSuf fundSuf rest).bind fun v =>
      if v = [] ∨ v.any isLineTerm then none else some v

/-! ## Sorting and the version resolver -/

/-- Insertion into a `lexLe`-sorted list (the embedding of what
`Array.prototype.sort()` guarantees about its output). -/
def insertStr (x : Str) : List Str → List Str
  | [] => [x]
  | y :: ys => if lexLe x y then x :: y :: ys else y :: insertStr x ys

/-- Sort a list of strings lexicographically, as `versions.sort()` does. -/
def sortStrs (l : List Str) : List Str := l.foldr insertStr []

/-- Sortedness: each element is `lexLe` all later ones. -/
abbrev SortedLe : List Str → Prop := List.Pairwise (fun a b => lexLe a b = true)

/-- The Version Resolver `getHighestCachedVersion` of the source: extract
the version component of every `fundamentals`-role cache name, sort, and
return the last (the null return of an empty list is `none`). -/
def getHighestCachedVersion (keys : List Str) : Option Str :=
  (sortStrs (keys.filterMap extractFundVersion)).getLast?

/-! ## The cache store, requests, responses and the network -/

/-- An HTTP response as the worker observes and synthesizes it: status,
status text, body (`none` models the null body) and content type. -/
structure Response where
  status : Nat
  statusText : Str
  body : Option Str
  contentType : Option Str
deriving DecidableEq

/-- The `ok` accessor of a `Response`: status in the 200-299 range. -/
def Response.okB (r : Response) : Bool := 200 ≤ r.status && r.status < 300

/-- An intercepted request as the fetch listener inspects it: method, url,
mode, the Accept header value (empty when absent) and `destination`. -/
structure Request where
  method : Str
  url : Str
  mode : Str
  accept : Str
  destination : Str
deriving DecidableEq

/-- The network oracle: `none` is a rejected fetch, `some r` a settled
response (possibly with a non-success status). -/
abbrev Net := Str → Option Response

/-- Observable cache-storage events: namespace creation (by `caches.open`
of an absent name), namespace deletion (by `caches.delete` of a present
name), and an entry write (`cache.put`). -/
inductive CacheOp where
  | created (name : Str)
  | deleted (name : Str)
  | putOp (name : Str) (url : Str)
deriving DecidableEq

/-- The cache store: caches in creation order, each a list of
`(url, response)` entries. -/
abbrev CacheState := List (Str × List (Str × Response))

/-- The namespace enumeration `caches.keys()`. -/
def cachesKeys (st : CacheState) : List Str := st.map Prod.fst

/-- The model of `caches.open(n)`: creates the cache if absent. -/
def cachesOpen (st : CacheState) (n : Str) : CacheState × List CacheOp :=
  if n ∈ cachesKeys st then (st, []) else (st ++ [(n, [])], [.created n])

/-- The model of `caches.delete(n)`: removes the cache when present. -/
def cachesDelete (st : CacheState) (n : Str) : CacheState × List CacheOp :=
  if n ∈ cachesKeys st then (st.filter (fun e => decide (e.1 ≠ n)), [.deleted n])
  else (st, [])

/-- Write an entry into a cache's entry list, last write wins. -/
def putEntry (es : List (Str × Response)) (u : Str) (r : Response) :
    List (Str × Response) :=
  if u ∈ es.map Prod.fst then es.map (fun p => if p.1 = u then (u, r) else p)
  else es ++ [(u, r)]

/-- The model of `cache.put(u, r)` on the cache named `n` (which the
worker always opens before putting). -/
def cachePut (st : CacheState) (n : Str) (u : Str) (r : Response) :
    CacheState × List CacheOp :=
  (st.map (fun e => if e.1 = n then (n, putEntry e.2 u r) else e), [.putOp n u])

/-- Look an url up in one cache's entries. -/
def lookupEntry (es : List (Str × Response)) (u : Str) : Option Response :=
  es.findSome? (fun p => if p.1 = u then some p.2 else none)

/-- The model of `caches.match(u)`: search every cache in creation order. -/
def cachesMatch (st : CacheState) (u : Str) : Option Response :=
  st.findSome? (fun e => lookupEntry e.2 u)

/-! ## Locations and URL helpers -/

/-- Where the worker is deployed: the origin (no trailing slash) and the
worker's directory URL (the scope, with trailing slash).  `self.location`
is `dir ++ "sw.js"`; resolving a plain relative path against it appends
the path to `dir`. -/
structure Loc where
  origin : Str
  dir : Str
deriving DecidableEq

/-- The `ensureTrailingSlash` helper of the source. -/
def ensureTrailingSlash (s : Str) : Str :=
  if s.getLast? = some '/' then s else s ++ ['/']

/-- The constant `REMOTE_ASSET_LIST = new URL("cached_asset_list.js", self.location).href`. -/
def REMOTE_ASSET_LIST (loc : Loc) : Str := loc.dir ++ "cached_asset_list.js".toList

/-- The scope base used for app-shell lookups:
`ensureTrailingSlash(self.registration?.scope || new URL('.', self.location).href)`. -/
def scopeBase (loc : Loc) : Str := ensureTrailingSlash loc.dir

/-- Drop a URL's fragment (`ua.hash = ""`). -/
def stripHash (u : Str) : Str := u.takeWhile (fun c => decide (c ≠ '#'))

/-- The `urlsEqualSansHash` helper of the source, on already-absolute URLs. -/
def urlsEqualSansHash (a b : Str) : Bool := decide (stripHash a = stripHash b)

/-- JavaScript `String.prototype.endsWith`. -/
def endsWithL (s suf : Str) : Bool := List.isPrefixOf suf.reverse s.reverse

/-- JavaScript `String.prototype.includes` (substring containment). -/
def hasInfix (pat : Str) : Str → Bool
  | [] => pat.isEmpty
  | c :: cs => List.isPrefixOf pat (c :: cs) || hasInfix pat cs

/-! ## Synthesized fallback responses -/

/-- The final fallback of `networkFirst`: the offline HTML document with
status 503. -/
def offlineHtml503 : Response :=
  { status := 503, statusText := "Service Unavailable".toList,
    body := some ("<h1>Service Unavailable</h1><p>Offline</p>".toList),
    contentType := some ("text/html".toList) }

/-- The empty `204 No Content` response with a null body, used by
`cacheFirstThenUpdate` for images/icons and by `handleFaviconRequest`. -/
def noContent204 : Response :=
  { status := 204, statusText := "No Content".toList, body := none,
    contentType := none }

/-- The generic empty-body 503 of `cacheFirstThenUpdate`. -/
def empty503 : Response :=
  { status := 503, statusText := "Service Unavailable".toList, body := some [],
    contentType := none }

/-! ## The request strategies -/

/-- The best-effort mirror of a response into the current version's pages
cache, shared verbatim by both strategies: resolve the highest cached
version; when one exists, open `<prefix><current>::pages` and put. -/
def mirrorToPages (st : CacheState) (u : Str) (r : Response) :
    CacheState × List CacheOp :=
  match getHighestCachedVersion (cachesKeys st) with
  | some current =>
    let o := cachesOpen st (pagesName current)
    let p := cachePut o.1 (pagesName current) u r
    (p.1, o.2 ++ p.2)
  | none => (st, [])

/-- The `networkFirst` strategy of the source: fetch; on success mirror
into pages (best effort) and return the network response (even non-ok
ones); on network failure fall back to an exact cache match, then the
app-shell (scope root, `index.html`, `404.html` in that order), then the
synthesized offline HTML 503. -/
def networkFirst (loc : Loc) (net : Net) (st : CacheState) (req : Request) :
    Response × CacheState × List CacheOp :=
  match net req.url with
  | some networkResponse =>
    let m := mirrorToPages st req.url networkResponse
    (networkResponse, m.1, m.2)
  | none =>
    match cachesMatch st req.url with
    | some cached => (cached, st, [])
    | none =>
      match cachesMatch st (scopeBase loc),
            cachesMatch st (scopeBase loc ++ "index.html".toList),
            cachesMatch st (scopeBase loc ++ "404.html".toList) with
      | some m, _, _ => (m, st, [])
      | none, some m, _ => (m, st, [])
      | none, none, some m => (m, st, [])
      | none, none, none => (offlineHtml503, st, [])

/-- The detached refresh of `cacheFirstThenUpdate`: the fetch promise's
continuation, which on a settled ok response mirrors it into pages (and
does nothing on a non-ok response or a rejected fetch).  It always runs;
the response path never awaits it when a cache match exists. -/
def backgroundRefresh (net : Net) (st : CacheState) (req : Request) :
    CacheState × List CacheOp :=
  match net req.url with
  | some resp => if resp.okB then mirrorToPages st req.url resp else (st, [])
  | none => (st, [])

/-- The `cacheFirstThenUpdate` strategy of the source: an exact cache
match is returned immediately (the refresh still runs); otherwise the
network attempt's settled response is returned; otherwise the 204/503
fallbacks. -/
def cacheFirstThenUpdate (net : Net) (st : CacheState) (req : Request) :
    Response × CacheState × List CacheOp :=
  let br := backgroundRefresh net st req
  match cachesMatch st req.url with
  | some cached => (cached, br.1, br.2)
  | none =>
    match net req.url with
    | some resp => (resp, br.1, br.2)
    | none =>
      if req.destination = "image".toList ∨ endsWithL req.url "/favicon.ico".toList
      then (noContent204, br.1, br.2)
      else (empty503, br.1, br.2)

/-- The `handleFaviconRequest` handler of the source: network (kept only
when ok), then cache, then the null-body 204. -/
def handleFaviconRequest (net : Net) (st : CacheState) (req : Request) :
    Response × CacheState × List CacheOp :=
  let fromCache :=
    match cachesMatch st req.url with
    | some c => c
    | none => noContent204
  match net req.url with
  | some r => if r.okB then (r, st, ([] : List CacheOp)) else (fromCache, st, [])
  | none => (fromCache, st, [])

/-! ## The strategy dispatcher (fetch listener) -/

/-- How the fetch listener routes a request. -/
inductive Routed where
  | passThrough
  | favicon
  | assetList
  | nav
  | cacheFirst
deriving DecidableEq

/-- The routing decision of the source's fetch listener, in its textual
order: non-GET returns without `respondWith`; `/favicon.ico` URLs go to
the favicon handler; the asset-list URL and navigations/HTML-preferring
requests go network-first; everything else cache-first.  No scheme test
appears in this listener. -/
def route (loc : Loc) (req : Request) : Routed :=
  if req.method ≠ "GET".toList then .passThrough
  else if endsWithL req.url "/favicon.ico".toList then .favicon
  else if urlsEqualSansHash req.url (REMOTE_ASSET_LIST loc) then .assetList
  else if req.mode = "navigate".toList ∨ hasInfix "text/html".toList req.accept then .nav
  else .cacheFirst

/-- The fetch listener's observable behaviour: `none` when the request is
not intercepted (falls through to default network handling), otherwise
the `respondWith` response together with the strategy's cache effects.
The non-blocking update check a navigation also starts is a detached
task (`checkRemoteAssetListAndUpdateIfNeeded`, modelled separately) and
contributes nothing to the response. -/
def handleFetch (loc : Loc) (net : Net) (st : CacheState) (req : Request) :
    Option (Response × CacheState × List CacheOp) :=
  match route loc req with
  | .passThrough => none
  | .favicon => some (handleFaviconRequest net st req)
  | .assetList => some (networkFirst loc net st req)
  | .nav => some (networkFirst loc net st req)
  | .cacheFirst => some (cacheFirstThenUpdate net st req)

/-- The scheme test the specification requires of the dispatcher
(`scheme ∈ {http, https}`), modelled from the spec for comparison with
the source's listener, which tests only the method. -/
def isHttpScheme (u : Str) : Bool :=
  List.isPrefixOf "http://".toList u || List.isPrefixOf "https://".toList u

/-- The fallback table of the amended C9: icon URLs get the null-body
204; requests the listener routes Network-First (the manifest location,
navigations, HTML-preferring requests) get the offline HTML 503
document; the remaining static resources get 204 when their destination
is image-class and the empty-body 503 otherwise.  Modelled from the
spec's fallback clause, amended to the listener's actual routing order. -/
def specFallback (loc : Loc) (req : Request) : Response :=
  if endsWithL req.url "/favicon.ico".toList then noContent204
  else if urlsEqualSansHash req.url (REMOTE_ASSET_LIST loc) then offlineHtml503
  else if req.mode = "navigate".toList ∨ hasInfix "text/html".toList req.accept then
    offlineHtml503
  else if req.destination = "image".toList then noContent204
  else empty503

/-- A concrete deployment location used by concrete instances. -/
def loc0 : Loc :=
  { origin := "https://example.test".toList,
    dir := "https://example.test/cadoku/".toList }

/-- A GET request with a non-HTTP(S) scheme. -/
def ftpReq : Request :=
  { method := "GET".toList, url := "ftp://example.test/x".toList,
    mode := [], accept := [], destination := [] }

/-- A navigation request for the root-level favicon. -/
def navFaviconReq : Request :=
  { method := "GET".toList, url := "https://example.test/favicon.ico".toList,
    mode := "navigate".toList, accept := "text/html".toList,
    destination := "document".toList }

/-- A concrete stored response for the cache-first witness. -/
def respA : Response :=
  { status := 200, statusText := "OK".toList, body := some ("A".toList),
    contentType := none }

/-- A store holding `respA` under a pages namespace. -/
def st6 : CacheState :=
  [(pagesName ("2025".toList),
    [("https://example.test/cadoku/a.js".toList, respA)])]

/-- The request matching the `st6` entry. -/
def req6 : Request :=
  { method := "GET".toList, url := "https://example.test/cadoku/a.js".toList,
    mode := [], accept := [], destination := "script".toList }

/-- A store holding one fundamentals namespace of version 1. -/
def st10 : CacheState := [(fundName ("1".toList), [])]

/-- A generic successful response. -/
def respOk200 : Response :=
  { status := 200, statusText := "OK".toList, body := some ("B".toList),
    contentType := none }

/-- A network oracle replying 200 to everything. -/
def net10 : Net := fun _ => some respOk200

/-- A plain static-resource request. -/
def req10 : Request :=
  { method := "GET".toList, url := "https://example.test/cadoku/b.css".toList,
    mode := [], accept := [], destination := "style".toList }

/-! ## The manifest fetcher: regex scanners

`fetchRemoteAssetList` extracts two statements from the manifest text by
the regexes `/const\s+version\s*=\s*["']([^"']+)["']/` and
`/const\s+offlineFundamentals\s*=\s*(\[[\s\S]*?\]);/`, taking the
leftmost match of each.  Both are embedded as positional matchers plus a
left-to-right scan.  Greedy/lazy subtleties resolve exactly: each `\s+`
or `\s*` is followed by a non-whitespace literal, so the maximal run is
the only possible one; `[^"']+` is followed by a quote class, so the
maximal non-quote run is the only possible one; and the lazy
`[\s\S]*?\];` takes everything up to the first `];` occurrence. -/

/-- The JS `\s` class on the characters this worker can meet. -/
def isJsWs (c : Char) : Bool :=
  c = ' ' || c = '\t' || c = '\n' || c = '\r' || c = '\x0b' || c = '\x0c'

/-- The `["']` class. -/
def isQuote (c : Char) : Bool := c = '"' || c = '\''

/-- Match `\s+` (followed by a non-whitespace literal): require one
whitespace character and drop the maximal run. -/
def stripWs1 : Str → Option Str
  | c :: cs => if isJsWs c then some (cs.dropWhile isJsWs) else none
  | [] => none

/-- Match `\s*` (followed by a non-whitespace literal). -/
def dropWs (l : Str) : Str := l.dropWhile isJsWs

/-- Try `/const\s+version\s*=\s*["']([^"']+)["']/` at the head of `l`,
returning the capture. -/
def matchVersionAt (l : Str) : Option Str :=
  (stripLit "const".toList l).bind fun r1 =>
  (stripWs1 r1).bind fun r2 =>
  (stripLit "version".toList r2).bind fun r3 =>
  match dropWs r3 with
  | '=' :: r5 =>
    (match dropWs r5 with
     | q :: r7 =>
       if isQuote q then
         (let cap := r7.takeWhile (fun c => !isQuote c)
          match r7.dropWhile (fun c => !isQuote c) with
          | _ :: _ => if cap = [] then none else some cap
          | [] => none)
       else none
     | [] => none)
  | _ => none

/-- Everything strictly before the first `];` occurrence, if one exists. -/
def upToBracketSemi : Str → Option Str
  | [] => none
  | [_] => none
  | c :: c2 :: rest =>
    if c = ']' ∧ c2 = ';' then some []
    else (upToBracketSemi (c2 :: rest)).map (c :: ·)

/-- Try `/const\s+offlineFundamentals\s*=\s*(\[[\s\S]*?\]);/` at the head
of `l`, returning the captured array slice including its brackets. -/
def matchArrAt (l : Str) : Option Str :=
  (stripLit "const".toList l).bind fun r1 =>
  (stripWs1 r1).bind fun r2 =>
  (stripLit "offlineFundamentals".toList r2).bind fun r3 =>
  match dropWs r3 with
  | '=' :: r5 =>
    (match dropWs r5 with
     | '[' :: rest => (upToBracketSemi rest).map (fun mid => '[' :: mid ++ [']'])
     | _ => none)
  | _ => none

/-- Leftmost match: try the positional matcher at every position, left to
right (`String.prototype.match` of an unanchored regex). -/
def scanFirst (f : Str → Option Str) : Str → Option Str
  | [] => none
  | c :: cs =>
    match f (c :: cs) with
    | some r => some r
    | none => scanFirst f cs

/-! ## The array-slice evaluator

The source runs `new Function("return " + arrMatch[1])()` — it executes
the captured slice as JavaScript.  The evaluator below embeds that
execution on the JavaScript fragment array slices can exercise here:
array literals whose elements are `+`-chains of string literals and
non-negative integer literals, with JavaScript's `+` semantics.  Slices
outside this fragment are beyond the model. -/

/-- A JavaScript value of the modelled fragment. -/
inductive JSVal where
  | str (s : Str)
  | num (n : Nat)
deriving DecidableEq

/-- JavaScript `+` on the fragment: numeric addition, string
concatenation, string coercion of numbers. -/
def jsAdd : JSVal → JSVal → JSVal
  | .str a, .str b => .str (a ++ b)
  | .num a, .num b => .num (a + b)
  | .str a, .num b => .str (a ++ (Nat.repr b).toList)
  | .num a, .str b => .str ((Nat.repr a).toList ++ b)

/-- Tokens of the fragment. -/
inductive Tok where
  | lbrack
  | rbrack
  | comma
  | plus
  | str (s : Str)
  | num (n : Nat)
deriving DecidableEq

/-- Decimal value of a digit run. -/
def digitsToNat (ds : Str) : Nat := ds.foldl (fun a c => a * 10 + (c.toNat - 48)) 0

/-- Fuel-indexed tokenizer of the fragment.  A string literal runs to the
next occurrence of its own quote character (no escapes in the fragment);
an unterminated literal is a syntax error, which is what the source's
`new Function` throws when the lazy slice cuts a literal short. -/
def tokenizeF : Nat → Str → Except Str (List Tok)
  | 0, _ => .error "fuel exhausted".toList
  | _ + 1, [] => .ok []
  | fuel + 1, c :: cs =>
    if isJsWs c then tokenizeF fuel cs
    else if c = '[' then (tokenizeF fuel cs).map (Tok.lbrack :: ·)
    else if c = ']' then (tokenizeF fuel cs).map (Tok.rbrack :: ·)
    else if c = ',' then (tokenizeF fuel cs).map (Tok.comma :: ·)
    else if c = '+' then (tokenizeF fuel cs).map (Tok.plus :: ·)
    else if isQuote c then
      (let body := cs.takeWhile (fun d => !(d = c : Bool))
       match cs.drop body.length with
       | _ :: rest => (tokenizeF fuel rest).map (Tok.str body :: ·)
       | [] => .error "unterminated string literal".toList)
    else if c.isDigit then
      (let ds := (c :: cs).takeWhile Char.isDigit
       (tokenizeF fuel ((c :: cs).drop ds.length)).map (Tok.num (digitsToNat ds) :: ·))
    else .error "unexpected character".toList

/-- The tokenizer with always-sufficient fuel. -/
def tokenize (l : Str) : Except Str (List Tok) := tokenizeF (l.length + 1) l

mutual

/-- Evaluate the element list of an array literal (after the opening
bracket): elements separated by commas up to the closing bracket at the
end of the slice; a trailing comma is legal JavaScript and yields no
extra element. -/
def evalElems : List Tok → Except Str (List JSVal)
  | [Tok.rbrack] => .ok []
  | Tok.str s :: rest => evalAfter (JSVal.str s) rest
  | Tok.num n :: rest => evalAfter (JSVal.num n) rest
  | _ => .error "unexpected token in array literal".toList

/-- Continue after a parsed element value: `+`-chain operands, a comma
starting the next element, or the closing bracket ending the slice. -/
def evalAfter (v : JSVal) : List Tok → Except Str (List JSVal)
  | Tok.plus :: Tok.str s :: rest => evalAfter (jsAdd v (.str s)) rest
  | Tok.plus :: Tok.num n :: rest => evalAfter (jsAdd v (.num n)) rest
  | Tok.comma :: rest => (evalElems rest).map (v :: ·)
  | [Tok.rbrack] => .ok [v]
  | _ => .error "unexpected token after element".toList

end

/-- The model of `new Function("return " + slice)()` on the fragment: the
slice always begins with `[` (the regex guarantees it), so the result is
always an array and the source's `Array.isArray` guard cannot fire. -/
def evalJsArray (l : Str) : Except Str (List JSVal) :=
  match tokenize l with
  | .error e => .error e
  | .ok (Tok.lbrack :: rest) => evalElems rest
  | .ok _ => .error "expected array literal".toList

/-! ## Asset-URL normalization and the fetcher -/

/-- JavaScript `String.prototype.trim` on the modelled whitespace set. -/
def trimStr (s : Str) : Str :=
  ((s.dropWhile isJsWs).reverse.dropWhile isJsWs).reverse

/-- The `/^https?:\/\//i` test. -/
def startsWithHttp (u : Str) : Bool :=
  List.isPrefixOf "http://".toList (u.map Char.toLower) ||
  List.isPrefixOf "https://".toList (u.map Char.toLower)

/-- The `/^\/\//` test. -/
def startsWithSlashSlash (u : Str) : Bool := List.isPrefixOf "//".toList u

/-- The string case of `normalizeAssetUrl`: absolute URLs pass through
trimmed; host-relative paths resolve against the origin; everything else
resolves against the worker's directory (its scope). -/
def normalizeUrlStr (loc : Loc) (a : Str) : Str :=
  let trimmed := trimStr a
  if startsWithHttp trimmed || startsWithSlashSlash trimmed then trimmed
  else
    match trimmed with
    | '/' :: _ => loc.origin ++ trimmed
    | _ => loc.dir ++ trimmed

/-- The `normalizeAssetUrl` helper of the source; non-string values pass
through unchanged (`if (typeof a !== "string") return a`). -/
def normalizeAssetUrl (loc : Loc) : JSVal → JSVal
  | .str s => .str (normalizeUrlStr loc s)
  | v => v

/-- A parsed manifest: the version and the normalized asset values. -/
structure Manifest where
  version : Str
  assets : List JSVal
deriving DecidableEq

/-- The Manifest Fetcher's error taxonomy: `fetchError` for transport
failures and non-success statuses, `parseError` for absent or malformed
markers. -/
inductive FetchListError where
  | fetchError (msg : Str)
  | parseError (msg : Str)
deriving DecidableEq

/-- The parsing part of `fetchRemoteAssetList`, applied to the fetched
text: extract the version capture and the array slice, evaluate the
slice, normalize every asset. -/
def parseAssetList (loc : Loc) (text : Str) : Except FetchListError Manifest :=
  match scanFirst matchVersionAt text with
  | none => .error (.parseError "version not found in asset list".toList)
  | some version =>
    match scanFirst matchArrAt text with
    | none => .error (.parseError "offlineFundamentals not found in asset list".toList)
    | some slice =>
      match evalJsArray slice with
      | .error m =>
        .error (.parseError ("failed to parse offlineFundamentals array: ".toList ++ m))
      | .ok vals => .ok { version := version, assets := vals.map (normalizeAssetUrl loc) }

/-- The `await res.text()` of a settled response. -/
def Response.textOf (r : Response) : Str := r.body.getD []

/-- The `fetchRemoteAssetList` function of the source: fetch the manifest
location; a rejected fetch propagates as a transport error, a non-ok
status throws `failed to fetch asset list`, and an ok response is parsed. -/
def fetchRemoteAssetList (loc : Loc) (net : Net) : Except FetchListError Manifest :=
  match net (REMOTE_ASSET_LIST loc) with
  | none => .error (.fetchError "network failure".toList)
  | some res =>
    if res.okB then parseAssetList loc res.textOf
    else
      .error (.fetchError
        ("failed to fetch asset list: ".toList ++ (Nat.repr res.status).toList))

/-- Accept only an array of plain string literals, rejecting every other
token (expressions, numbers, anything computed). -/
def safeStrings : List Tok → Option (List Str)
  | [Tok.rbrack] => some []
  | [Tok.str s, Tok.rbrack] => some [s]
  | Tok.str s :: Tok.comma :: Tok.str t :: rest =>
      (safeStrings (Tok.str t :: rest)).map (s :: ·)
  | _ => none

/-- Modelled from the spec: the "safe structured-data parser operating on
a minimal grammar (one string assignment, one string-array literal), with
explicit rejection of malformed input — never dynamic code execution"
that §4.1 and §9 require in place of the source's `new Function`
evaluation (the code-evaluation hack is flagged in §9; no such parser
exists in the source).  On an array slice it accepts exactly an array of
plain string literals. -/
def safeParseStringArray (l : Str) : Option (List Str) :=
  match tokenize l with
  | .error _ => none
  | .ok (Tok.lbrack :: rest) => safeStrings rest
  | .ok _ => none

/-! ## Well-formed manifest texts -/

/-- Characters allowed in well-formed version strings and asset entries:
no quotes (a quote ends the literal), no backslash (escapes are outside
the fragment), no brackets or semicolon (the lazy array regex slices at
the first `];` and the leftmost-match argument needs `[`-freedom), and no
whitespace or line terminators (so trimming is the identity). -/
def goodChar (c : Char) : Bool :=
  !(c = '"' || c = '\'' || c = '\\' || c = '[' || c = ']' || c = ';' ||
    isJsWs c || isLineTerm c)

/-- A well-formed version string: non-empty, all characters good. -/
abbrev goodVersion (v : Str) : Prop := v ≠ [] ∧ ∀ c ∈ v, goodChar c = true

/-- A well-formed asset entry: all characters good. -/
abbrev goodAsset (a : Str) : Prop := ∀ c ∈ a, goodChar c = true

/-- The double-quoted, comma-separated rendering of the asset list, as
the build pipeline (`find … | sed 's|^|  "…|; s|$|",|'`) produces it. -/
def encodeAssets : List Str → Str
  | [] => []
  | [a] => '"' :: a ++ ['"']
  | a :: rest => '"' :: a ++ '"' :: ',' :: ' ' :: encodeAssets rest

/-- A well-formed manifest text: the version assignment, then the asset
list literal, as the build pipeline emits them. -/
def encodeManifest (v : Str) (assets : List Str) : Str :=
  "const version = \"".toList ++ v ++ "\";\n".toList ++
  "const offlineFundamentals = [".toList ++ encodeAssets assets ++ "];".toList

/-- A manifest text whose array literal contains the computed expression
`"a"+"b"` instead of a plain string literal. -/
def evalHackText : Str :=
  "const version = \"v\";\nconst offlineFundamentals = [\"a\"+\"b\"];".toList

/-- A well-formed manifest text listing the same asset twice. -/
def dupManifestText : Str :=
  encodeManifest ("2025".toList) ["a.js".toList, "a.js".toList]

/-- Characters a position matcher may consume before reaching the `[` of
the array slice: the letters of the two literals, whitespace, and `=`. -/
def preOk (c : Char) : Bool := c.isAlpha || isJsWs c || c = '='

/-- The token rendering of an encoded asset list (with the closing
bracket of the slice). -/
def elemToks : List Str → List Tok
  | [] => [Tok.rbrack]
  | [a] => [Tok.str a, Tok.rbrack]
  | a :: rest => Tok.str a :: Tok.comma :: elemToks rest

/-! ## The Update Checker -/

/-- An evaluated asset value used as a fetch URL (non-string values are
string-coerced by `fetch`). -/
def urlOfJSVal : JSVal → Str
  | .str s => s
  | .num n => (Nat.repr n).toList

/-- The result object of `checkRemoteAssetListAndUpdateIfNeeded`. -/
structure UpdateResult where
  updated : Bool
  newVersion : Option Str
deriving DecidableEq

/-- The best-effort asset prefetch of the update path: fetch each asset
with cache-bypass semantics and put the ok ones into the new
fundamentals cache; failures are logged and skipped. -/
def assetLoop (net : Net) (fund : Str) : List Str → CacheState → CacheState × List CacheOp
  | [], st => (st, [])
  | u :: us, st =>
    match net u with
    | some r =>
      if r.okB then
        let p := cachePut st fund u r
        let rest := assetLoop net fund us p.1
        (rest.1, p.2 ++ rest.2)
      else assetLoop net fund us st
    | none => assetLoop net fund us st

/-- The garbage-collection step of the update path:
`keys.filter(k => !k.startsWith(prefix + version)).map(caches.delete)`. -/
def deleteNonMatching (st : CacheState) (pfx : Str) : CacheState × List CacheOp :=
  (st.filter (fun e => pfx.isPrefixOf e.1),
   ((cachesKeys st).filter (fun k => !(pfx.isPrefixOf k))).map CacheOp.deleted)

/-- The update path taken when the remote version differs from the
resolved local one: open the new fundamentals cache, prefetch the assets
into it, open the new (empty) pages cache, then delete every cache whose
name does not start with the new version's prefix.  The client broadcast
(`NEW_VERSION_AVAILABLE`) touches no cache state and is outside the
modelled store. -/
def updateApply (m : Manifest) (net : Net) (st : CacheState) :
    UpdateResult × CacheState × List CacheOp :=
  let o1 := cachesOpen st (fundName m.version)
  let l := assetLoop net (fundName m.version) (m.assets.map urlOfJSVal) o1.1
  let o2 := cachesOpen l.1 (pagesName m.version)
  let d := deleteNonMatching o2.1 (CACHE_PFX ++ m.version)
  (⟨true, some m.version⟩, d.1, o1.2 ++ l.2 ++ o2.2 ++ d.2)

/-- The `checkRemoteAssetListAndUpdateIfNeeded` function of the source:
fetch and parse the manifest (aborting the invocation on failure);
compare the remote version against the resolved local one (`current ===
remoteVersion`, false when no version resolves); return `updated: false`
untouched on equality, else apply the update. -/
def checkRemoteAssetListAndUpdateIfNeeded (loc : Loc) (net : Net) (st : CacheState) :
    Except FetchListError (UpdateResult × CacheState × List CacheOp) :=
  match fetchRemoteAssetList loc net with
  | .error e => .error e
  | .ok m =>
    if getHighestCachedVersion (cachesKeys st) = some m.version
    then .ok (⟨false, none⟩, st, [])
    else .ok (updateApply m net st)

/-- The manifest response of the concrete update-checker runs: version 1,
empty asset list. -/
def respC1 : Response :=
  { status := 200, statusText := "OK".toList,
    body := some (encodeManifest ("1".toList) []), contentType := none }

/-- A network oracle serving only that manifest. -/
def netC1 : Net := fun u =>
  if u = REMOTE_ASSET_LIST loc0 then some respC1 else none

/-- A store whose only namespace belongs to version `1.2` — a version of
which the incoming remote version `1` is a strict prefix. -/
def stC1 : CacheState := [(fundName ("1.2".toList), [])]

/-! ## Theorems -/

theorem lexLe_refl (l : Str) : lexLe l l = true := by
  induction l with
  | nil => rfl
  | cons a as ih => simp [lexLe, ih]

theorem lexLe_total (a b : Str) : lexLe a b = true ∨ lexLe b a = true := by
  induction a generalizing b with
  | nil => left; rfl
  | cons x xs ih =>
    cases b with
    | nil => right; rfl
    | cons y ys =>
      by_cases hxy : x.toNat < y.toNat
      · left; simp [lexLe, hxy]
      · by_cases hyx : y.toNat < x.toNat
        · right; simp [lexLe, hyx]
        · rcases ih ys with h | h
          · left; simp [lexLe, hxy, hyx, h]
          · right; simp [lexLe, hxy, hyx, h]

theorem lexLe_trans {a b c : Str} (hab : lexLe a b = true) (hbc : lexLe b c = true) :
    lexLe a c = true := by
  induction a generalizing b c with
  | nil => rfl
  | cons x xs ih =>
    cases b with
    | nil => simp [lexLe] at hab
    | cons y ys =>
      cases c with
      | nil => simp [lexLe] at hbc
      | cons z zs =>
        simp only [lexLe] at hab hbc ⊢
        by_cases hxy : x.toNat < y.toNat
        · by_cases hyz : y.toNat < z.toNat
          · simp [show x.toNat < z.toNat by omega]
          · by_cases hzy : z.toNat < y.toNat
            · simp [hyz, hzy] at hbc
            · simp [show x.toNat < z.toNat by omega]
        · by_cases hyx : y.toNat < x.toNat
          · simp [hxy, hyx] at hab
          · by_cases hyz : y.toNat < z.toNat
            · simp [show x.toNat < z.toNat by omega]
            · by_cases hzy : z.toNat < y.toNat
              · simp [hyz, hzy] at hbc
              · have hxz : ¬ x.toNat < z.toNat := by omega
                have hzx : ¬ z.toNat < x.toNat := by omega
                rw [if_neg hxy, if_neg hyx] at hab
                rw [if_neg hyz, if_neg hzy] at hbc
                rw [if_neg hxz, if_neg hzx]
                exact ih hab hbc

theorem stripLit_eq_some {lit l r : Str} :
    stripLit lit l = some r ↔ l = lit ++ r := by
  induction lit generalizing l with
  | nil => simp [stripLit, eq_comm]
  | cons x xs ih =>
    cases l with
    | nil => simp [stripLit]
    | cons c cs =>
      by_cases hc : c = x
      · subst hc
        simp only [stripLit, if_pos rfl, List.cons_append, List.cons.injEq, true_and]
        exact ih
      · simp [stripLit, hc, List.cons_append]

theorem stripSuf_eq_some {suf l m : Str} :
    stripSuf suf l = some m ↔ l = m ++ suf := by
  simp only [stripSuf, Option.map_eq_some']
  constructor
  · rintro ⟨r, hr, rfl⟩
    have := stripLit_eq_some.mp hr
    have h2 : l.reverse.reverse = (suf.reverse ++ r).reverse := by rw [this]
    simpa [List.reverse_append] using h2
  · rintro rfl
    refine ⟨m.reverse, stripLit_eq_some.mpr ?_, by simp⟩
    simp [List.reverse_append]

theorem extractFundVersion_eq_some {k v : Str} :
    extractFundVersion k = some v ↔
      k = CACHE_PFX ++ v ++ fundSuf ∧ v ≠ [] ∧ v.all (fun c => !isLineTerm c) := by
  constructor
  · intro h
    cases hs : stripLit CACHE_PFX k with
    | none => simp [extractFundVersion, hs] at h
    | some rest =>
      cases ht : stripSuf fundSuf rest with
      | none => simp [extractFundVersion, hs, ht] at h
      | some v' =>
        simp only [extractFundVersion, hs, ht, Option.some_bind] at h
        by_cases hv : v' = [] ∨ v'.any isLineTerm
        · rw [if_pos hv] at h; exact absurd h (by simp)
        · rw [if_neg hv] at h
          have hvv := Option.some.inj h
          subst hvv
          have hv1 : ¬ v' = [] := fun he => hv (Or.inl he)
          have hv2 : ¬ v'.any isLineTerm = true := fun he => hv (Or.inr he)
          have h1 := stripLit_eq_some.mp hs
          have h2 := stripSuf_eq_some.mp ht
          refine ⟨by rw [h1, h2, List.append_assoc], hv1, ?_⟩
          simp only [List.all_eq_true]
          intro c hc
          rcases Bool.eq_false_or_eq_true (isLineTerm c) with hl | hl
          · exact absurd (List.any_eq_true.mpr ⟨c, hc, hl⟩) hv2
          · simp [hl]
  · rintro ⟨hk, hne, hall⟩
    have hs : stripLit CACHE_PFX k = some (v ++ fundSuf) :=
      stripLit_eq_some.mpr (by rw [hk, List.append_assoc])
    have ht : stripSuf fundSuf (v ++ fundSuf) = some v := stripSuf_eq_some.mpr rfl
    have hno : ¬ (v = [] ∨ v.any isLineTerm = true) := by
      rintro (rfl | hany)
      · exact hne rfl
      · rcases List.any_eq_true.mp hany with ⟨c, hc, hl⟩
        have := (List.all_eq_true.mp hall) c hc
        simp [hl] at this
    simp only [extractFundVersion, hs, ht, Option.some_bind, if_neg hno]

theorem mem_insertStr {x y : Str} {l : List Str} :
    y ∈ insertStr x l ↔ y = x ∨ y ∈ l := by
  induction l with
  | nil => simp [insertStr]
  | cons a as ih =>
    by_cases h : lexLe x a = true
    · simp [insertStr, h]
    · simp only [insertStr, if_neg h, List.mem_cons, ih]
      tauto

theorem insertStr_ne_nil (x : Str) (l : List Str) : insertStr x l ≠ [] := by
  cases l with
  | nil => simp [insertStr]
  | cons a as =>
    by_cases h : lexLe x a = true
    · simp [insertStr, h]
    · simp [insertStr, h]

theorem sorted_insertStr {x : Str} {l : List Str} (h : SortedLe l) :
    SortedLe (insertStr x l) := by
  induction l with
  | nil => exact List.pairwise_singleton _ _
  | cons a as ih =>
    rcases (List.pairwise_cons.mp h) with ⟨ha, has⟩
    by_cases hxa : lexLe x a = true
    · have he : insertStr x (a :: as) = x :: a :: as := by simp [insertStr, hxa]
      rw [he]
      refine List.pairwise_cons.mpr ⟨?_, h⟩
      intro b hb
      rcases List.mem_cons.mp hb with rfl | hb
      · exact hxa
      · exact lexLe_trans hxa (ha b hb)
    · have hax : lexLe a x = true := (lexLe_total x a).resolve_left hxa
      have he : insertStr x (a :: as) = a :: insertStr x as := by simp [insertStr, hxa]
      rw [he]
      refine List.pairwise_cons.mpr ⟨?_, ih has⟩
      intro b hb
      rcases mem_insertStr.mp hb with rfl | hb
      · exact hax
      · exact ha b hb

theorem sorted_sortStrs (l : List Str) : SortedLe (sortStrs l) := by
  induction l with
  | nil => exact List.Pairwise.nil
  | cons a as ih => exact sorted_insertStr ih

theorem mem_sortStrs {x : Str} {l : List Str} : x ∈ sortStrs l ↔ x ∈ l := by
  induction l with
  | nil => simp [sortStrs]
  | cons a as ih =>
    simp only [sortStrs, List.foldr_cons] at *
    rw [mem_insertStr, ih, List.mem_cons]

theorem getLast?_mem' {l : List Str} {m : Str} (h : l.getLast? = some m) : m ∈ l := by
  induction l with
  | nil => simp at h
  | cons a as ih =>
    cases as with
    | nil =>
      simp only [List.getLast?_singleton, Option.some.injEq] at h
      simp [h]
    | cons b bs =>
      rw [List.getLast?_cons_cons] at h
      exact List.mem_cons_of_mem _ (ih h)

theorem getLast?_sorted_max {l : List Str} (hs : SortedLe l) {m : Str}
    (h : l.getLast? = some m) : ∀ x ∈ l, lexLe x m = true := by
  induction l with
  | nil => simp at h
  | cons a as ih =>
    rcases List.pairwise_cons.mp hs with ⟨ha, has⟩
    intro x hx
    cases as with
    | nil =>
      simp only [List.getLast?_singleton, Option.some.injEq] at h
      rcases List.mem_singleton.mp hx with rfl
      rw [← h]
      exact lexLe_refl x
    | cons b bs =>
      rw [List.getLast?_cons_cons] at h
      rcases List.mem_cons.mp hx with rfl | hx
      · exact lexLe_trans (ha b (List.mem_cons_self b bs))
          (ih has h b (List.mem_cons_self b bs))
      · exact ih has h x hx

theorem getHighestCachedVersion_none_iff (keys : List Str) :
    getHighestCachedVersion keys = none ↔ keys.filterMap extractFundVersion = [] := by
  unfold getHighestCachedVersion
  rw [List.getLast?_eq_none_iff]
  constructor
  · intro h
    by_contra hne
    rcases List.exists_mem_of_ne_nil _ hne with ⟨x, hx⟩
    have : x ∈ sortStrs (keys.filterMap extractFundVersion) := mem_sortStrs.mpr hx
    rw [h] at this
    simp at this
  · intro h
    rw [h]
    rfl

theorem getHighestCachedVersion_max {keys : List Str} {v : Str}
    (h : getHighestCachedVersion keys = some v) :
    v ∈ keys.filterMap extractFundVersion ∧
      ∀ w ∈ keys.filterMap extractFundVersion, lexLe w v = true := by
  unfold getHighestCachedVersion at h
  constructor
  · exact mem_sortStrs.mp (getLast?_mem' h)
  · intro w hw
    exact getLast?_sorted_max (sorted_sortStrs _) h w (mem_sortStrs.mpr hw)

/-- C8: for every set of namespace names present in the local store, the
Version Resolver `getHighestCachedVersion` returns the lexicographically
greatest version component among the namespaces with role `fundamentals`
(a name of the shape `CACHE_PREFIX ++ version ++ "::fundamentals"` with a
non-empty version), or none if no such namespace exists.  The resolver is
a pure function of the enumerated key list (`caches.keys()`); it performs
no writes to the store. -/
theorem C8_version_resolver_greatest (keys : List Str) :
    (getHighestCachedVersion keys = none ↔ keys.filterMap extractFundVersion = []) ∧
    (∀ v, getHighestCachedVersion keys = some v →
      v ∈ keys.filterMap extractFundVersion ∧
        ∀ w ∈ keys.filterMap extractFundVersion, lexLe w v = true) ∧
    (∀ k v, extractFundVersion k = some v ↔
      (k = CACHE_PFX ++ v ++ fundSuf ∧ v ≠ [] ∧ v.all (fun c => !isLineTerm c))) := by
  refine ⟨getHighestCachedVersion_none_iff keys, ?_, ?_⟩
  · intro v hv
    exact getHighestCachedVersion_max hv
  · intro k v
    exact extractFundVersion_eq_some

/-- Witness for C8 at a concrete key set: among two fundamentals
namespaces and assorted junk the resolver picks the later version, and
that version is the maximum of the extracted components. -/
theorem C8_version_resolver_greatest_witness :
    "2025-01-02T00:00:00Z".toList ∈
        ([("cadoku-cache:2025-01-01T00:00:00Z::fundamentals").toList,
          ("cadoku-cache:2025-01-02T00:00:00Z::fundamentals").toList,
          ("cadoku-cache:2025-01-02T00:00:00Z::pages").toList,
          "junk".toList] : List Str).filterMap extractFundVersion ∧
      ∀ w ∈ ([("cadoku-cache:2025-01-01T00:00:00Z::fundamentals").toList,
          ("cadoku-cache:2025-01-02T00:00:00Z::fundamentals").toList,
          ("cadoku-cache:2025-01-02T00:00:00Z::pages").toList,
          "junk".toList] : List Str).filterMap extractFundVersion,
        lexLe w ("2025-01-02T00:00:00Z".toList) = true :=
  (C8_version_resolver_greatest _).2.1 _ (by decide)

/-! ## Theorems about the strategies and the dispatcher -/

/-- C6: whenever the request's identity has an exact match in the store,
`cacheFirstThenUpdate` returns that stored value — for every network
oracle, so for every outcome (success, failure, or any response at all)
of the concurrent background refresh; the refresh is never awaited, so a
hung fetch cannot change the returned value either. -/
theorem C6_cache_first_precedence (net : Net) (st : CacheState) (req : Request)
    (r : Response) (h : cachesMatch st req.url = some r) :
    (cacheFirstThenUpdate net st req).1 = r := by
  simp only [cacheFirstThenUpdate, h]

/-- Witness for C6: a stored entry is returned although the concurrent
refresh's fetch rejects. -/
theorem C6_cache_first_precedence_witness :
    cachesMatch st6 req6.url = some respA ∧
      (cacheFirstThenUpdate (fun _ => none) st6 req6).1 = respA :=
  ⟨by decide, C6_cache_first_precedence (fun _ => none) st6 req6 respA (by decide)⟩

/-- C3 counterexample: a GET request with the non-HTTP(S) scheme `ftp:`
is nevertheless intercepted (routed cache-first), refuting the claim that
non-HTTP(S) requests fall through untouched: the listener checks only the
method. -/
theorem C3_counterexample_ftp_get_intercepted :
    route loc0 ftpReq = Routed.cacheFirst ∧
      route loc0 ftpReq ≠ Routed.passThrough ∧
      isHttpScheme ftpReq.url = false := by decide

/-- C3 amended: the dispatcher declines (falls through untouched) exactly
the non-GET requests; the URL scheme is not examined, so GET requests
with non-HTTP(S) schemes are handled too. -/
theorem C3_amended_method_only_filter (loc : Loc) (req : Request) :
    route loc req = Routed.passThrough ↔ req.method ≠ "GET".toList := by
  unfold route
  split_ifs with h1 h2 h3 h4 <;> simp_all

/-- C9 counterexample: a navigation (mode `navigate`, HTML-preferring)
whose URL ends in `/favicon.ico`, with an empty store and an unreachable
network, is answered with the null-body 204 — not the HTML 503 document
the claim requires for navigations — because the listener routes favicon
URLs before checking for navigations. -/
theorem C9_counterexample_navigation_favicon :
    navFaviconReq.mode = "navigate".toList ∧
      handleFetch loc0 (fun _ => none) [] navFaviconReq =
        some (noContent204, [], []) ∧
      noContent204.status = 204 ∧ offlineHtml503.status = 503 ∧
      noContent204 ≠ offlineHtml503 :=
  ⟨rfl, rfl, rfl, rfl, by decide⟩

/-- The offline-and-uncached outcome of `networkFirst`: the offline HTML
document with status 503, no state change. -/
theorem networkFirst_offline (loc : Loc) (net : Net) (st : CacheState)
    (req : Request)
    (hnet : net req.url = none)
    (hc : cachesMatch st req.url = none)
    (hs0 : cachesMatch st (scopeBase loc) = none)
    (hs1 : cachesMatch st (scopeBase loc ++ "index.html".toList) = none)
    (hs2 : cachesMatch st (scopeBase loc ++ "404.html".toList) = none) :
    networkFirst loc net st req = (offlineHtml503, st, []) := by
  unfold networkFirst
  rw [hnet, hc, hs0, hs1, hs2]

/-- The offline-and-uncached outcome of `cacheFirstThenUpdate` for an
image-class or icon request: the null-body 204, no state change. -/
theorem cacheFirstThenUpdate_offline_image (net : Net) (st : CacheState)
    (req : Request)
    (hnet : net req.url = none)
    (hc : cachesMatch st req.url = none)
    (h : req.destination = "image".toList ∨
      endsWithL req.url "/favicon.ico".toList = true) :
    cacheFirstThenUpdate net st req = (noContent204, st, []) := by
  unfold cacheFirstThenUpdate backgroundRefresh
  rw [hnet, hc]
  dsimp only
  rw [if_pos h]

/-- The offline-and-uncached outcome of `cacheFirstThenUpdate` for other
static resources: the empty-body 503, no state change. -/
theorem cacheFirstThenUpdate_offline_other (net : Net) (st : CacheState)
    (req : Request)
    (hnet : net req.url = none)
    (hc : cachesMatch st req.url = none)
    (h : ¬ (req.destination = "image".toList ∨
      endsWithL req.url "/favicon.ico".toList = true)) :
    cacheFirstThenUpdate net st req = (empty503, st, []) := by
  unfold cacheFirstThenUpdate backgroundRefresh
  rw [hnet, hc]
  dsimp only
  rw [if_neg h]

/-- The offline-and-uncached outcome of `handleFaviconRequest`: the
null-body 204, no state change. -/
theorem handleFaviconRequest_offline (net : Net) (st : CacheState)
    (req : Request)
    (hnet : net req.url = none)
    (hc : cachesMatch st req.url = none) :
    handleFaviconRequest net st req = (noContent204, st, []) := by
  unfold handleFaviconRequest
  rw [hnet, hc]

/-- C9 amended: for every GET request that can be served neither from the
store (no exact match, no app-shell match) nor from the network, the
dispatcher synthesizes exactly the `specFallback` response: 204 for icon
URLs, the HTML 503 document for requests routed network-first (manifest
location, navigations, HTML-preferring requests), 204 for image-class
static resources and the empty-body 503 for the rest — leaving the store
untouched. -/
theorem C9_amended_fallback_responses (loc : Loc) (net : Net) (st : CacheState)
    (req : Request)
    (hm : req.method = "GET".toList)
    (hnet : net req.url = none)
    (hc : cachesMatch st req.url = none)
    (hs0 : cachesMatch st (scopeBase loc) = none)
    (hs1 : cachesMatch st (scopeBase loc ++ "index.html".toList) = none)
    (hs2 : cachesMatch st (scopeBase loc ++ "404.html".toList) = none) :
    handleFetch loc net st req = some (specFallback loc req, st, []) := by
  unfold handleFetch route specFallback
  have hm' : ¬ req.method ≠ "GET".toList := by simp [hm]
  rw [if_neg hm']
  by_cases hf : endsWithL req.url "/favicon.ico".toList = true
  · rw [if_pos hf, if_pos hf, handleFaviconRequest_offline net st req hnet hc]
  · rw [if_neg hf, if_neg hf]
    by_cases ha : urlsEqualSansHash req.url (REMOTE_ASSET_LIST loc) = true
    · rw [if_pos ha, if_pos ha,
        networkFirst_offline loc net st req hnet hc hs0 hs1 hs2]
    · rw [if_neg ha, if_neg ha]
      by_cases hn : req.mode = "navigate".toList ∨
          hasInfix "text/html".toList req.accept = true
      · rw [if_pos hn, if_pos hn,
          networkFirst_offline loc net st req hnet hc hs0 hs1 hs2]
      · rw [if_neg hn, if_neg hn]
        by_cases hi : req.destination = "image".toList
        · rw [if_pos hi,
            cacheFirstThenUpdate_offline_image net st req hnet hc (Or.inl hi)]
        · have hor : ¬ (req.destination = "image".toList ∨
              endsWithL req.url "/favicon.ico".toList = true) := by
            rintro (h | h)
            · exact hi h
            · exact hf h
          rw [if_neg hi,
            cacheFirstThenUpdate_offline_other net st req hnet hc hor]

/-- Witness for the amended C9 at a concrete uncached, unreachable
static-resource request (Scenario D of the spec): the empty-body 503. -/
theorem C9_amended_fallback_responses_witness :
    handleFetch loc0 (fun _ => none) [] req10 = some (specFallback loc0 req10, [], []) ∧
      specFallback loc0 req10 = empty503 :=
  ⟨C9_amended_fallback_responses loc0 (fun _ => none) [] req10
      (by decide) rfl (by decide) (by decide) (by decide) (by decide),
    by decide⟩

/-- The current-version mirror does nothing when no version resolves. -/
theorem mirrorToPages_none {st : CacheState} {u : Str} {r : Response}
    (h : getHighestCachedVersion (cachesKeys st) = none) :
    mirrorToPages st u r = (st, []) := by
  simp only [mirrorToPages, h]

/-- Every entry write the current-version mirror logs targets the pages
namespace of the resolved highest version, at the mirrored url. -/
theorem mirrorToPages_put {st : CacheState} {u : Str} {r : Response} {n u' : Str}
    (h : CacheOp.putOp n u' ∈ (mirrorToPages st u r).2) :
    ∃ v, getHighestCachedVersion (cachesKeys st) = some v ∧
      n = pagesName v ∧ u' = u := by
  cases hg : getHighestCachedVersion (cachesKeys st) with
  | none => rw [mirrorToPages_none hg] at h; simp at h
  | some v =>
    refine ⟨v, rfl, ?_⟩
    simp only [mirrorToPages, hg] at h
    by_cases hin : pagesName v ∈ cachesKeys st
    · simp only [cachesOpen, if_pos hin, cachePut, List.nil_append,
        List.mem_singleton, List.mem_cons, List.not_mem_nil, or_false,
        CacheOp.putOp.injEq] at h
      exact h
    · simp only [cachesOpen, if_neg hin, cachePut, List.singleton_append,
        List.mem_cons, List.mem_singleton, List.not_mem_nil, or_false,
        CacheOp.putOp.injEq] at h
      rcases h with h | h
      · exact absurd h (by simp)
      · exact h

/-- The effect log of `networkFirst` is empty or that of one mirror. -/
theorem networkFirst_snd_ops (loc : Loc) (net : Net) (st : CacheState)
    (req : Request) :
    (networkFirst loc net st req).2.2 = [] ∨
      ∃ r, (networkFirst loc net st req).2.2 = (mirrorToPages st req.url r).2 := by
  unfold networkFirst
  cases hn : net req.url with
  | some r => right; exact ⟨r, rfl⟩
  | none =>
    left
    cases cachesMatch st req.url with
    | some c => rfl
    | none =>
      cases cachesMatch st (scopeBase loc) with
      | some m => rfl
      | none =>
        cases cachesMatch st (scopeBase loc ++ "index.html".toList) with
        | some m => rfl
        | none =>
          cases cachesMatch st (scopeBase loc ++ "404.html".toList) with
          | some m => rfl
          | none => rfl

/-- The effect log of `cacheFirstThenUpdate` is exactly its background
refresh's. -/
theorem cacheFirstThenUpdate_snd_ops (net : Net) (st : CacheState) (req : Request) :
    (cacheFirstThenUpdate net st req).2.2 = (backgroundRefresh net st req).2 := by
  unfold cacheFirstThenUpdate
  cases cachesMatch st req.url with
  | some c => rfl
  | none =>
    cases net req.url with
    | some r => rfl
    | none =>
      by_cases h : req.destination = "image".toList ∨
          endsWithL req.url "/favicon.ico".toList = true
      · dsimp only
        rw [if_pos h]
      · dsimp only
        rw [if_neg h]

/-- The background refresh's log is empty or that of one mirror. -/
theorem backgroundRefresh_snd_ops (net : Net) (st : CacheState) (req : Request) :
    (backgroundRefresh net st req).2 = [] ∨
      ∃ r, (backgroundRefresh net st req).2 = (mirrorToPages st req.url r).2 := by
  unfold backgroundRefresh
  cases net req.url with
  | some r =>
    by_cases ho : r.okB = true
    · right; exact ⟨r, by simp [ho]⟩
    · left; simp [ho]
  | none => left; rfl

/-- C10: in `networkFirst` and `cacheFirstThenUpdate`, when the Version
Resolver finds no installed version, the store is left entirely alone
(no write, creation or deletion at all); and every entry write either
strategy performs targets exactly the pages namespace of the currently
resolved highest version. -/
theorem C10_pages_writes_only_current (loc : Loc) (net : Net) (st : CacheState)
    (req : Request) :
    (getHighestCachedVersion (cachesKeys st) = none →
      (networkFirst loc net st req).2.2 = [] ∧
      (cacheFirstThenUpdate net st req).2.2 = []) ∧
    (∀ n u, CacheOp.putOp n u ∈ (networkFirst loc net st req).2.2 →
      ∃ v, getHighestCachedVersion (cachesKeys st) = some v ∧ n = pagesName v) ∧
    (∀ n u, CacheOp.putOp n u ∈ (cacheFirstThenUpdate net st req).2.2 →
      ∃ v, getHighestCachedVersion (cachesKeys st) = some v ∧ n = pagesName v) := by
  refine ⟨?_, ?_, ?_⟩
  · intro hnone
    constructor
    · rcases networkFirst_snd_ops loc net st req with h | ⟨r, h⟩
      · exact h
      · rw [h, mirrorToPages_none hnone]
    · rw [cacheFirstThenUpdate_snd_ops]
      rcases backgroundRefresh_snd_ops net st req with h | ⟨r, h⟩
      · exact h
      · rw [h, mirrorToPages_none hnone]
  · intro n u hmem
    rcases networkFirst_snd_ops loc net st req with h | ⟨r, h⟩
    · rw [h] at hmem; simp at hmem
    · rw [h] at hmem
      rcases mirrorToPages_put hmem with ⟨v, hv, hn, _⟩
      exact ⟨v, hv, hn⟩
  · intro n u hmem
    rw [cacheFirstThenUpdate_snd_ops] at hmem
    rcases backgroundRefresh_snd_ops net st req with h | ⟨r, h⟩
    · rw [h] at hmem; simp at hmem
    · rw [h] at hmem
      rcases mirrorToPages_put hmem with ⟨v, hv, hn, _⟩
      exact ⟨v, hv, hn⟩

/-- Witness for C10: a concrete write by `networkFirst` lands in the
pages namespace of the resolved version 1. -/
theorem C10_pages_writes_only_current_witness :
    ∃ v, getHighestCachedVersion (cachesKeys st10) = some v ∧
      pagesName ("1".toList) = pagesName v :=
  (C10_pages_writes_only_current loc0 net10 st10 req10).2.1
    (pagesName ("1".toList)) req10.url (by decide)

/-- C2 (the code, evaluated at the failing input): on a payload whose
array slice is the expression `["a"+"b"]`, the fetcher succeeds and its
result contains the string `ab` — a value appearing nowhere in the
payload, produced by executing the payload's `+` expression through
`new Function` — while the safe structured-data parser the specification
mandates rejects that slice outright.  The fetcher's result is therefore
not obtained by a safe structured-data parse. -/
theorem C2_payload_expression_is_evaluated :
    scanFirst matchArrAt evalHackText = some ("[\"a\"+\"b\"]".toList) ∧
      safeParseStringArray ("[\"a\"+\"b\"]".toList) = none ∧
      parseAssetList loc0 evalHackText =
        .ok { version := "v".toList,
              assets := [JSVal.str ("https://example.test/cadoku/ab".toList)] } := by
  refine ⟨by decide, by decide, by rfl⟩

/-- Splitting `takeWhile`/`dropWhile` over an all-true prefix followed by
a falsifying element. -/
theorem takeWhile_all_append {p : Char → Bool} {l : Str} {x : Char} {r : Str}
    (hl : ∀ c ∈ l, p c = true) (hx : p x = false) :
    (l ++ x :: r).takeWhile p = l ∧ (l ++ x :: r).dropWhile p = x :: r := by
  induction l with
  | nil => simp [List.takeWhile_cons, List.dropWhile_cons, hx]
  | cons a as ih =>
    have ha := hl a (List.mem_cons_self _ _)
    have ih' := ih (fun c hc => hl c (List.mem_cons_of_mem _ hc))
    simp [List.takeWhile_cons, List.dropWhile_cons, ha, ih'.1, ih'.2]

/-- Unpacking `goodChar`. -/
theorem goodChar_spec {c : Char} (h : goodChar c = true) :
    ¬ c = '"' ∧ ¬ c = '\'' ∧ ¬ c = '\\' ∧ ¬ c = '[' ∧ ¬ c = ']' ∧ ¬ c = ';' ∧
      isJsWs c = false ∧ isLineTerm c = false := by
  unfold goodChar at h
  simp only [Bool.not_eq_true', Bool.or_eq_false_iff, decide_eq_false_iff_not,
    Bool.not_eq_true] at h
  tauto

/-- A good character is not a quote. -/
theorem goodChar_not_quote {c : Char} (h : goodChar c = true) :
    (!isQuote c) = true := by
  rcases goodChar_spec h with ⟨h1, h2, -⟩
  simp [isQuote, h1, h2]

/-- A successful `\s+` consumes a non-empty all-whitespace run. -/
theorem stripWs1_eq_some {l r : Str} (h : stripWs1 l = some r) :
    ∃ w, w ≠ [] ∧ (∀ c ∈ w, isJsWs c = true) ∧ l = w ++ r := by
  cases l with
  | nil => simp [stripWs1] at h
  | cons c cs =>
    by_cases hc : isJsWs c = true
    · rw [show stripWs1 (c :: cs) = some (cs.dropWhile isJsWs) from by
        simp [stripWs1, hc]] at h
      cases h
      refine ⟨c :: cs.takeWhile isJsWs, by simp, ?_, ?_⟩
      · intro d hd
        rcases List.mem_cons.mp hd with rfl | hd
        · exact hc
        · exact List.mem_takeWhile_imp hd
      · simp [List.takeWhile_append_dropWhile]
    · rw [show stripWs1 (c :: cs) = none from by simp [stripWs1, hc]] at h
      exact absurd h (by simp)

theorem alpha_of_mem_const : ∀ c ∈ "const".toList, c.isAlpha = true := by decide

theorem alpha_of_mem_off :
    ∀ c ∈ "offlineFundamentals".toList, c.isAlpha = true := by decide

/-- The maximal-whitespace split induced by a `dropWs` equation. -/
theorem dropWs_split {l m : Str} (h : dropWs l = m) :
    ∃ w, (∀ c ∈ w, isJsWs c = true) ∧ l = w ++ m := by
  refine ⟨l.takeWhile isJsWs, fun c hc => List.mem_takeWhile_imp hc, ?_⟩
  conv_lhs => rw [← List.takeWhile_append_dropWhile (p := isJsWs) (l := l)]
  rw [show l.dropWhile isJsWs = dropWs l from rfl, h]

/-- Every successful array-statement match begins with a run of
`preOk` characters followed by `[`. -/
theorem matchArrAt_shape {l cap : Str} (h : matchArrAt l = some cap) :
    ∃ pre mid, l = pre ++ '[' :: mid ∧ ∀ c ∈ pre, preOk c = true := by
  unfold matchArrAt at h
  rcases Option.bind_eq_some.mp h with ⟨r1, h1, h⟩
  rcases Option.bind_eq_some.mp h with ⟨r2, h2, h⟩
  rcases Option.bind_eq_some.mp h with ⟨r3, h3, h⟩
  have hl1 := stripLit_eq_some.mp h1
  rcases stripWs1_eq_some h2 with ⟨w1, -, hw1, hr1⟩
  have hl2 := stripLit_eq_some.mp h3
  split at h
  case h_2 => exact absurd h (by simp)
  case h_1 r5 heq =>
    split at h
    case h_2 => exact absurd h (by simp)
    case h_1 rest heq2 =>
      rcases dropWs_split heq with ⟨w2, hw2, hr3⟩
      rcases dropWs_split heq2 with ⟨w3, hw3, hr5⟩
      refine ⟨"const".toList ++ w1 ++ "offlineFundamentals".toList ++
        w2 ++ '=' :: w3, rest, ?_, ?_⟩
      · rw [hl1, hr1, hl2, hr3, hr5]
        simp [List.append_assoc]
      · intro c hc
        simp only [List.append_assoc, List.mem_append, List.mem_cons] at hc
        rcases hc with hc | hc | hc | hc | rfl | hc
        · simp [preOk, alpha_of_mem_const c hc]
        · simp [preOk, hw1 c hc]
        · simp [preOk, alpha_of_mem_off c hc]
        · simp [preOk, hw2 c hc]
        · simp [preOk]
        · simp [preOk, hw3 c hc]

/-- Two decompositions of one list around distinct distinguished
elements: one of them contains the other's element. -/
theorem append_cons_eq_append_cons {p x r y : Str} {a b : Char}
    (h : p ++ a :: r = x ++ b :: y) (hne : a ≠ b) : b ∈ p ∨ a ∈ x := by
  induction x generalizing p with
  | nil =>
    cases p with
    | nil =>
      simp only [List.nil_append, List.cons.injEq] at h
      exact absurd h.1 hne
    | cons c p' =>
      simp only [List.cons_append, List.nil_append, List.cons.injEq] at h
      left
      rw [h.1]
      exact List.mem_cons_self _ _
  | cons d x' ih =>
    cases p with
    | nil =>
      simp only [List.nil_append, List.cons_append, List.cons.injEq] at h
      right
      rw [← h.1]
      exact List.mem_cons_self _ _
    | cons c p' =>
      simp only [List.cons_append, List.cons.injEq] at h
      rcases ih h.2 with hb | ha
      · left; exact List.mem_cons_of_mem _ hb
      · right; exact List.mem_cons_of_mem _ ha

/-- No array-statement match can start at a position from which a `"`
is reached before any `[`. -/
theorem matchArrAt_none_of_quote {x y : Str} (hx : '[' ∉ x) :
    matchArrAt (x ++ '"' :: y) = none := by
  by_contra hne
  rcases Option.ne_none_iff_exists'.mp hne with ⟨cap, h⟩
  rcases matchArrAt_shape h with ⟨pre, mid, heq, hpre⟩
  rcases append_cons_eq_append_cons heq.symm (by decide) with hq | hb
  · exact absurd (hpre '"' hq) (by decide)
  · exact hx hb

/-- The array-statement matcher fails at any position whose first
character is not `c`. -/
theorem matchArrAt_cons_ne {c : Char} (hc : ¬ c = 'c') (l : Str) :
    matchArrAt (c :: l) = none := by
  unfold matchArrAt
  rw [show stripLit "const".toList (c :: l) = none from by simp [stripLit, hc]]
  rfl

/-- A successful match at the first position wins the scan. -/
theorem scanFirst_of_head {f : Str → Option Str} {l r : Str}
    (hne : l ≠ []) (h : f l = some r) : scanFirst f l = some r := by
  cases l with
  | nil => exact absurd rfl hne
  | cons c cs => simp [scanFirst, h]

/-- A scan skips a region at whose every position the matcher fails. -/
theorem scanFirst_append_none {f : Str → Option Str} :
    ∀ (x t : Str), (∀ w, w <:+ x → w ≠ [] → f (w ++ t) = none) →
      scanFirst f (x ++ t) = scanFirst f t := by
  intro x
  induction x with
  | nil => intro t _; simp
  | cons c cs ih =>
    intro t h
    have h0 : f ((c :: cs) ++ t) = none := h (c :: cs) (List.suffix_refl _) (by simp)
    rw [List.cons_append]
    rw [show scanFirst f (c :: (cs ++ t)) = scanFirst f (cs ++ t) from by
      simp only [scanFirst]
      rw [show f (c :: (cs ++ t)) = none from h0]]
    exact ih t (fun w hw hne => h w (hw.trans (List.suffix_cons _ _)) hne)

/-- Decompose a suffix of an append. -/
theorem suffix_append_cases {w l1 l2 : Str} (h : w <:+ l1 ++ l2) :
    w <:+ l2 ∨ ∃ u, u <:+ l1 ∧ u ≠ [] ∧ w = u ++ l2 := by
  induction l1 generalizing w with
  | nil => left; simpa using h
  | cons c l1' ih =>
    rcases h with ⟨p, hp⟩
    cases p with
    | nil =>
      right
      refine ⟨c :: l1', List.suffix_refl _, by simp, ?_⟩
      simpa using hp
    | cons d p' =>
      simp only [List.cons_append, List.cons.injEq] at hp
      rcases ih ⟨p', hp.2⟩ with h2 | ⟨u, hu, hune, rfl⟩
      · left; exact h2
      · right; exact ⟨u, hu.trans (List.suffix_cons _ _), hune, rfl⟩

/-- The array-statement matcher fails at every position inside the
version statement of a well-formed manifest text: before the closing
quote every candidate start runs into the `"` (which no pattern piece
before `[` can consume, and no `[` precedes it), and the last three
characters are not `c`. -/
theorem matchArrAt_skip_stmt1 (v S2 : Str)
    (hv : ∀ c ∈ v, goodChar c = true) :
    ∀ w, w <:+ ("const version = ".toList ++ '"' :: (v ++ '"' :: ';' :: '\n' :: [])) →
      w ≠ [] → matchArrAt (w ++ S2) = none := by
  intro w hw hne
  have hvq : '[' ∉ v := by
    intro hmem
    exact absurd (hv '[' hmem) (by decide)
  rcases suffix_append_cases hw with h1 | ⟨u, hu, hune, rfl⟩
  · -- w is a suffix of '"' :: (v ++ ['"', ';', '\n'])
    rcases List.suffix_cons_iff.mp h1 with rfl | h2
    · -- w starts with the opening quote
      exact matchArrAt_cons_ne (by decide) _
    · rcases suffix_append_cases h2 with h3 | ⟨u, hu, hune2, rfl⟩
      · -- w is a suffix of ['"', ';', '\n']
        rcases List.suffix_cons_iff.mp h3 with rfl | h4
        · exact matchArrAt_cons_ne (by decide) _
        rcases List.suffix_cons_iff.mp h4 with rfl | h5
        · exact matchArrAt_cons_ne (by decide) _
        rcases List.suffix_cons_iff.mp h5 with rfl | h6
        · exact matchArrAt_cons_ne (by decide) _
        · exact absurd (List.suffix_nil.mp h6) hne
      · -- w = u ++ ['"', ';', '\n'] with u a non-empty suffix of v
        have hxu : '[' ∉ u := fun hm => hvq (hu.subset hm)
        have := matchArrAt_none_of_quote (x := u) (y := ';' :: '\n' :: S2) hxu
        simpa [List.append_assoc] using this
  · -- w = u ++ '"' :: (v ++ …) with u a non-empty suffix of "const version = "
    have hxu : '[' ∉ u := by
      intro hm
      have : '[' ∈ "const version = ".toList := hu.subset hm
      revert this
      decide
    have := matchArrAt_none_of_quote
      (x := u) (y := v ++ '"' :: ';' :: '\n' :: S2) hxu
    simpa [List.append_assoc] using this

/-- The version matcher succeeds at position 0 of a well-formed manifest
text and captures exactly the version. -/
theorem matchVersionAt_encode (v rest' : Str) (hne : v ≠ [])
    (hq : ∀ c ∈ v, (!isQuote c) = true) :
    matchVersionAt ("const version = ".toList ++ '"' :: (v ++ '"' :: rest')) =
      some v := by
  have htw := takeWhile_all_append (p := fun c => !isQuote c) (l := v)
    (x := '"') (r := rest') hq (by decide)
  have hstep : matchVersionAt
      ("const version = ".toList ++ '"' :: (v ++ '"' :: rest')) =
      (match (v ++ '"' :: rest').dropWhile (fun c => !isQuote c) with
       | _ :: _ =>
         if (v ++ '"' :: rest').takeWhile (fun c => !isQuote c) = [] then none
         else some ((v ++ '"' :: rest').takeWhile (fun c => !isQuote c))
       | [] => none) := rfl
  rw [hstep, htw.1, htw.2]
  simp [hne]

/-- The first `];` after the opening bracket closes the slice when the
list body contains no `]` at all. -/
theorem upToBracketSemi_clean : ∀ (l t : Str), ']' ∉ l →
    upToBracketSemi (l ++ ']' :: ';' :: t) = some l := by
  intro l
  induction l with
  | nil => intro t _; simp [upToBracketSemi]
  | cons c cs ih =>
    intro t h
    have hc : ¬ c = ']' := fun he => h (he ▸ List.mem_cons_self _ _)
    have hcs : ']' ∉ cs := fun hm => h (List.mem_cons_of_mem _ hm)
    cases cs with
    | nil =>
      simp [upToBracketSemi, hc]
    | cons c2 cs' =>
      have := ih t hcs
      simp only [List.cons_append] at this ⊢
      rw [show upToBracketSemi (c :: c2 :: (cs' ++ ']' :: ';' :: t)) =
        (upToBracketSemi (c2 :: (cs' ++ ']' :: ';' :: t))).map (c :: ·) from by
          simp [upToBracketSemi, hc]]
      rw [this]
      rfl

/-- No `]` occurs in an encoded asset list of good entries. -/
theorem rbrack_not_mem_encodeAssets :
    ∀ (assets : List Str), (∀ a ∈ assets, goodAsset a) →
      ']' ∉ encodeAssets assets := by
  intro assets
  induction assets with
  | nil => intro _; simp [encodeAssets]
  | cons a rest ih =>
    intro h
    have ha : ']' ∉ a := by
      intro hm
      exact absurd ((h a (List.mem_cons_self _ _)) ']' hm) (by decide)
    have hrest := ih (fun x hx => h x (List.mem_cons_of_mem _ hx))
    cases rest with
    | nil =>
      intro hm
      rw [show encodeAssets [a] = '"' :: (a ++ ['"']) from rfl] at hm
      rcases List.mem_cons.mp hm with h1 | h1
      · exact absurd h1 (by decide)
      rcases List.mem_append.mp h1 with h2 | h2
      · exact ha h2
      · exact absurd (List.mem_singleton.mp h2) (by decide)
    | cons b rest' =>
      intro hm
      rw [show encodeAssets (a :: b :: rest') =
        '"' :: (a ++ '"' :: ',' :: ' ' :: encodeAssets (b :: rest')) from rfl] at hm
      rcases List.mem_cons.mp hm with h1 | h1
      · exact absurd h1 (by decide)
      rcases List.mem_append.mp h1 with h2 | h2
      · exact ha h2
      rcases List.mem_cons.mp h2 with h3 | h3
      · exact absurd h3 (by decide)
      rcases List.mem_cons.mp h3 with h4 | h4
      · exact absurd h4 (by decide)
      rcases List.mem_cons.mp h4 with h5 | h5
      · exact absurd h5 (by decide)
      · exact hrest h5

/-- The array matcher succeeds at the head of the second statement and
captures the full bracketed slice. -/
theorem matchArrAt_stmt2 (assets : List Str) (ha : ∀ a ∈ assets, goodAsset a) :
    matchArrAt ("const offlineFundamentals = [".toList ++
        (encodeAssets assets ++ ']' :: ';' :: [])) =
      some ('[' :: encodeAssets assets ++ [']']) := by
  have hup := upToBracketSemi_clean (encodeAssets assets) []
    (rbrack_not_mem_encodeAssets assets ha)
  have hstep : matchArrAt ("const offlineFundamentals = [".toList ++
      (encodeAssets assets ++ ']' :: ';' :: [])) =
      (upToBracketSemi (encodeAssets assets ++ ']' :: ';' :: [])).map
        (fun mid => '[' :: mid ++ [']']) := rfl
  rw [hstep, hup]
  rfl

/-- The version scan of a well-formed manifest text yields its version. -/
theorem scanFirst_version_encode (v : Str) (assets : List Str)
    (hv : goodVersion v) :
    scanFirst matchVersionAt (encodeManifest v assets) = some v := by
  have hshape : encodeManifest v assets =
      "const version = ".toList ++ '"' :: (v ++ '"' ::
        (';' :: '\n' :: ("const offlineFundamentals = [".toList ++
          (encodeAssets assets ++ ']' :: ';' :: [])))) := by
    simp [encodeManifest, List.append_assoc]
  rw [hshape]
  exact scanFirst_of_head (by simp)
    (matchVersionAt_encode v _ hv.1 (fun c hc => goodChar_not_quote (hv.2 c hc)))

/-- The array scan of a well-formed manifest text yields the full
bracketed slice of its asset list. -/
theorem scanFirst_arr_encode (v : Str) (assets : List Str)
    (hv : ∀ c ∈ v, goodChar c = true) (ha : ∀ a ∈ assets, goodAsset a) :
    scanFirst matchArrAt (encodeManifest v assets) =
      some ('[' :: encodeAssets assets ++ [']']) := by
  have hshape : encodeManifest v assets =
      ("const version = ".toList ++ '"' :: (v ++ '"' :: ';' :: '\n' :: [])) ++
        ("const offlineFundamentals = [".toList ++
          (encodeAssets assets ++ ']' :: ';' :: [])) := by
    simp [encodeManifest, List.append_assoc]
  rw [hshape]
  rw [scanFirst_append_none _ _ (matchArrAt_skip_stmt1 v _ hv)]
  exact scanFirst_of_head (by simp) (matchArrAt_stmt2 assets ha)

/-- More fuel never changes the tokenizer once it has enough. -/
theorem tokenizeF_irrel : ∀ (n : Nat) (l : Str), l.length ≤ n →
    ∀ f1 f2, l.length < f1 → l.length < f2 → tokenizeF f1 l = tokenizeF f2 l := by
  intro n
  induction n with
  | zero =>
    intro l hl f1 f2 h1 h2
    have hnil : l = [] := List.length_eq_zero.mp (Nat.le_zero.mp hl)
    subst hnil
    obtain ⟨f1', rfl⟩ : ∃ k, f1 = k + 1 := ⟨f1 - 1, by omega⟩
    obtain ⟨f2', rfl⟩ : ∃ k, f2 = k + 1 := ⟨f2 - 1, by omega⟩
    rfl
  | succ n ih =>
    intro l hl f1 f2 h1 h2
    obtain ⟨f1', rfl⟩ : ∃ k, f1 = k + 1 := ⟨f1 - 1, by omega⟩
    obtain ⟨f2', rfl⟩ : ∃ k, f2 = k + 1 := ⟨f2 - 1, by omega⟩
    cases l with
    | nil => rfl
    | cons c cs =>
      have hlen : cs.length ≤ n := by simp at hl; omega
      have hcs1 : cs.length < f1' := by simp at h1; omega
      have hcs2 : cs.length < f2' := by simp at h2; omega
      simp only [tokenizeF]
      by_cases hws : isJsWs c = true
      · rw [if_pos hws, if_pos hws]
        exact ih cs hlen f1' f2' hcs1 hcs2
      · rw [if_neg hws, if_neg hws]
        by_cases hb : c = '['
        · rw [if_pos hb, if_pos hb, ih cs hlen f1' f2' hcs1 hcs2]
        · rw [if_neg hb, if_neg hb]
          by_cases hb2 : c = ']'
          · rw [if_pos hb2, if_pos hb2, ih cs hlen f1' f2' hcs1 hcs2]
          · rw [if_neg hb2, if_neg hb2]
            by_cases hb3 : c = ','
            · rw [if_pos hb3, if_pos hb3, ih cs hlen f1' f2' hcs1 hcs2]
            · rw [if_neg hb3, if_neg hb3]
              by_cases hb4 : c = '+'
              · rw [if_pos hb4, if_pos hb4, ih cs hlen f1' f2' hcs1 hcs2]
              · rw [if_neg hb4, if_neg hb4]
                by_cases hq : isQuote c = true
                · rw [if_pos hq, if_pos hq]
                  cases hd : cs.drop
                      ((cs.takeWhile (fun d => !(d = c : Bool))).length) with
                  | nil => rfl
                  | cons q rest =>
                    have hdl := congrArg List.length hd
                    simp only [List.length_drop, List.length_cons] at hdl
                    have hr1 : rest.length ≤ n := by omega
                    have hr2 : rest.length < f1' := by omega
                    have hr3 : rest.length < f2' := by omega
                    dsimp only
                    rw [ih rest hr1 f1' f2' hr2 hr3]
                · rw [if_neg hq, if_neg hq]
                  by_cases hdg : c.isDigit = true
                  · rw [if_pos hdg, if_pos hdg]
                    have hds : ((c :: cs).takeWhile Char.isDigit).length ≥ 1 := by
                      rw [List.takeWhile_cons, if_pos hdg]
                      simp
                    have hdl : ((c :: cs).drop
                        ((c :: cs).takeWhile Char.isDigit).length).length ≤ cs.length := by
                      simp only [List.length_drop, List.length_cons]
                      omega
                    rw [ih _ (by omega) f1' f2' (by omega) (by omega)]
                  · rw [if_neg hdg, if_neg hdg]

/-- Enough fuel reduces `tokenizeF` to `tokenize`. -/
theorem tokenizeF_eq_tokenize {f : Nat} {l : Str} (h : l.length < f) :
    tokenizeF f l = tokenize l :=
  tokenizeF_irrel l.length l (le_refl _) f (l.length + 1) h (by omega)

/-- Tokenizing a string literal peels it off whole. -/
theorem tokenize_quote {a rest : Str} (ha : ∀ d ∈ a, ¬ d = '"') :
    tokenize ('"' :: (a ++ '"' :: rest)) = (tokenize rest).map (Tok.str a :: ·) := by
  have htw := takeWhile_all_append (p := fun d => !(d = '"' : Bool)) (l := a)
    (x := '"') (r := rest) (fun c hc => by simp [ha c hc]) (by decide)
  have h1 : tokenize ('"' :: (a ++ '"' :: rest)) =
      (match (a ++ '"' :: rest).drop
          (((a ++ '"' :: rest).takeWhile (fun d => !(d = '"' : Bool))).length) with
       | _ :: rest2 =>
         (tokenizeF ((a ++ '"' :: rest).length + 1) rest2).map
           (Tok.str ((a ++ '"' :: rest).takeWhile (fun d => !(d = '"' : Bool))) :: ·)
       | [] => .error "unterminated string literal".toList) := rfl
  rw [h1, htw.1, List.drop_left]
  have hlt : rest.length < (a ++ '"' :: rest).length + 1 := by
    simp [List.length_append]
    omega
  dsimp only
  rw [tokenizeF_eq_tokenize hlt]

/-- Tokenizing an encoded asset list yields its token rendering. -/
theorem tokenize_encodeAssets : ∀ (assets : List Str),
    (∀ a ∈ assets, goodAsset a) →
    tokenize (encodeAssets assets ++ [']']) = .ok (elemToks assets) := by
  intro assets
  induction assets with
  | nil => intro _; rfl
  | cons a rest ih =>
    intro h
    have ha : ∀ d ∈ a, ¬ d = '"' := fun d hd =>
      (goodChar_spec ((h a (List.mem_cons_self _ _)) d hd)).1
    cases rest with
    | nil =>
      rw [show encodeAssets [a] ++ [']'] = '"' :: (a ++ '"' :: (']' :: []))
        from by simp [encodeAssets]]
      rw [tokenize_quote ha]
      rfl
    | cons b rest' =>
      have ih' := ih (fun x hx => h x (List.mem_cons_of_mem _ hx))
      rw [show encodeAssets (a :: b :: rest') ++ [']'] =
        '"' :: (a ++ '"' :: (',' :: ' ' :: (encodeAssets (b :: rest') ++ [']'])))
        from by simp [encodeAssets]]
      rw [tokenize_quote ha]
      rw [show tokenize (',' :: ' ' :: (encodeAssets (b :: rest') ++ [']'])) =
        (tokenize (encodeAssets (b :: rest') ++ [']'])).map (Tok.comma :: ·)
        from rfl]
      rw [ih']
      rfl

/-- Evaluating the token rendering of an asset list yields the string
values in order. -/
theorem evalElems_elemToks : ∀ (assets : List Str),
    evalElems (elemToks assets) = .ok (assets.map JSVal.str) := by
  intro assets
  induction assets with
  | nil => rfl
  | cons a rest ih =>
    cases rest with
    | nil => rfl
    | cons b rest' =>
      rw [show evalElems (elemToks (a :: b :: rest')) =
        (evalElems (elemToks (b :: rest'))).map (JSVal.str a :: ·) from rfl]
      rw [ih]
      rfl

/-- The slice evaluator on a well-formed encoded asset list. -/
theorem evalJsArray_encode (assets : List Str) (ha : ∀ a ∈ assets, goodAsset a) :
    evalJsArray ('[' :: encodeAssets assets ++ [']']) =
      .ok (assets.map JSVal.str) := by
  unfold evalJsArray
  rw [show tokenize ('[' :: encodeAssets assets ++ [']']) =
    (tokenize (encodeAssets assets ++ [']'])).map (Tok.lbrack :: ·) from rfl]
  rw [tokenize_encodeAssets assets ha]
  exact evalElems_elemToks assets

/-- C4 amended: for every well-formed manifest text, the fetcher's parse
yields the exact version string and the asset list with order preserved
and every entry normalized to absolute form; duplicates are NOT removed
by the fetcher (deduplication happens only in the installer, merged with
the app shell). -/
theorem C4_amended_manifest_roundtrip (loc : Loc) (v : Str) (assets : List Str)
    (hv : goodVersion v) (ha : ∀ a ∈ assets, goodAsset a) :
    parseAssetList loc (encodeManifest v assets) =
      .ok { version := v,
            assets := (assets.map JSVal.str).map (normalizeAssetUrl loc) } := by
  unfold parseAssetList
  rw [scanFirst_version_encode v assets hv,
    scanFirst_arr_encode v assets hv.2 ha]
  dsimp only
  rw [evalJsArray_encode assets ha]

/-- Witness for the amended C4 at a concrete well-formed manifest. -/
theorem C4_amended_manifest_roundtrip_witness :
    goodVersion ("2025-01-01T00:00:00Z".toList) ∧
      parseAssetList loc0 (encodeManifest ("2025-01-01T00:00:00Z".toList)
          ["a.js".toList, "assets/b.css".toList]) =
        .ok { version := "2025-01-01T00:00:00Z".toList,
              assets := ([("a.js".toList : Str), "assets/b.css".toList].map
                JSVal.str).map (normalizeAssetUrl loc0) } :=
  ⟨⟨by decide, by decide⟩,
    C4_amended_manifest_roundtrip loc0 _ _ ⟨by decide, by decide⟩ (by decide)⟩

/-- C5: the fetcher's error taxonomy.  Transport failure and non-success
statuses yield exactly a fetch error; on a successful transport the
result is the parse of the body, which succeeds exactly when both the
version marker and the asset-list marker match and the captured slice
evaluates, and whose every failure is a parse error. -/
theorem C5_fetcher_error_taxonomy (loc : Loc) (net : Net) :
    (net (REMOTE_ASSET_LIST loc) = none →
      fetchRemoteAssetList loc net =
        .error (.fetchError ("network failure".toList))) ∧
    (∀ r, net (REMOTE_ASSET_LIST loc) = some r → r.okB = false →
      fetchRemoteAssetList loc net =
        .error (.fetchError ("failed to fetch asset list: ".toList ++
          (Nat.repr r.status).toList))) ∧
    (∀ r, net (REMOTE_ASSET_LIST loc) = some r → r.okB = true →
      fetchRemoteAssetList loc net = parseAssetList loc r.textOf) ∧
    (∀ text, (∃ m, parseAssetList loc text = .ok m) ↔
      ((∃ ver, scanFirst matchVersionAt text = some ver) ∧
        ∃ slice vals, scanFirst matchArrAt text = some slice ∧
          evalJsArray slice = .ok vals)) ∧
    (∀ text e, parseAssetList loc text = .error e → ∃ msg, e = .parseError msg) := by
  refine ⟨?_, ?_, ?_, ?_, ?_⟩
  · intro h
    unfold fetchRemoteAssetList
    rw [h]
  · intro r hr hok
    unfold fetchRemoteAssetList
    rw [hr]
    dsimp only
    rw [if_neg (by simp [hok])]
  · intro r hr hok
    unfold fetchRemoteAssetList
    rw [hr]
    dsimp only
    rw [if_pos hok]
  · intro text
    constructor
    · rintro ⟨m, hm⟩
      unfold parseAssetList at hm
      cases h1 : scanFirst matchVersionAt text with
      | none => rw [h1] at hm; exact absurd hm (by simp)
      | some ver =>
        rw [h1] at hm
        dsimp only at hm
        cases h2 : scanFirst matchArrAt text with
        | none => rw [h2] at hm; exact absurd hm (by simp)
        | some slice =>
          rw [h2] at hm
          dsimp only at hm
          cases h3 : evalJsArray slice with
          | error e => rw [h3] at hm; exact absurd hm (by simp)
          | ok vals => exact ⟨⟨ver, rfl⟩, slice, vals, rfl, h3⟩
    · rintro ⟨⟨ver, h1⟩, slice, vals, h2, h3⟩
      unfold parseAssetList
      rw [h1]
      dsimp only
      rw [h2]
      dsimp only
      rw [h3]
      exact ⟨_, rfl⟩
  · intro text e he
    unfold parseAssetList at he
    cases h1 : scanFirst matchVersionAt text with
    | none =>
      rw [h1] at he
      exact ⟨_, (Except.error.inj he).symm⟩
    | some ver =>
      rw [h1] at he
      dsimp only at he
      cases h2 : scanFirst matchArrAt text with
      | none =>
        rw [h2] at he
        exact ⟨_, (Except.error.inj he).symm⟩
      | some slice =>
        rw [h2] at he
        dsimp only at he
        cases h3 : evalJsArray slice with
        | error m =>
          rw [h3] at he
          exact ⟨_, (Except.error.inj he).symm⟩
        | ok vals =>
          rw [h3] at he
          exact absurd he (by simp)

/-- Witness for C5: a rejected transport yields the fetch error. -/
theorem C5_fetcher_error_taxonomy_witness :
    fetchRemoteAssetList loc0 (fun _ => none) =
      .error (.fetchError ("network failure".toList)) :=
  (C5_fetcher_error_taxonomy loc0 (fun _ => none)).1 rfl

/-- An entry write (`cache.put`) never changes the namespace enumeration. -/
theorem cachesKeys_cachePut (st : CacheState) (n u : Str) (r : Response) :
    cachesKeys (cachePut st n u r).1 = cachesKeys st := by
  unfold cachePut cachesKeys
  induction st with
  | nil => rfl
  | cons e es ih =>
    simp only [List.map_cons, List.map] at ih ⊢
    by_cases he : e.1 = n
    · rw [if_pos he]
      simp [he, ih]
    · rw [if_neg he]
      simp [ih]

/-- The asset prefetch never changes the namespace enumeration. -/
theorem assetLoop_keys (net : Net) (fund : Str) :
    ∀ (urls : List Str) (st : CacheState),
      cachesKeys (assetLoop net fund urls st).1 = cachesKeys st := by
  intro urls
  induction urls with
  | nil => intro st; rfl
  | cons u us ih =>
    intro st
    unfold assetLoop
    cases net u with
    | none => exact ih st
    | some r =>
      dsimp only
      by_cases hok : r.okB = true
      · rw [if_pos hok]
        dsimp only
        rw [ih, cachesKeys_cachePut]
      · rw [if_neg hok]
        exact ih st

/-- The asset prefetch logs only entry writes. -/
theorem assetLoop_ops (net : Net) (fund : Str) :
    ∀ (urls : List Str) (st : CacheState) (op : CacheOp),
      op ∈ (assetLoop net fund urls st).2 → ∃ n u, op = CacheOp.putOp n u := by
  intro urls
  induction urls with
  | nil => intro st op h; simp [assetLoop] at h
  | cons u us ih =>
    intro st op h
    unfold assetLoop at h
    cases hn : net u with
    | none => rw [hn] at h; exact ih _ op h
    | some r =>
      rw [hn] at h
      dsimp only at h
      by_cases hok : r.okB = true
      · rw [if_pos hok] at h
        dsimp only at h
        rcases List.mem_append.mp h with h1 | h1
        · unfold cachePut at h1
          rcases List.mem_singleton.mp h1 with rfl
          exact ⟨_, _, rfl⟩
        · exact ih _ op h1
      · rw [if_neg hok] at h
        exact ih _ op h

/-- Opening a cache puts its name among the keys. -/
theorem cachesOpen_mem_keys (st : CacheState) (n : Str) :
    n ∈ cachesKeys (cachesOpen st n).1 := by
  unfold cachesOpen
  by_cases h : n ∈ cachesKeys st
  · rw [if_pos h]; exact h
  · rw [if_neg h]
    unfold cachesKeys
    simp only [List.map_append, List.mem_append, List.map_cons, List.map_nil,
      List.mem_singleton]
    right
    trivial

/-- Opening a cache keeps every existing key. -/
theorem cachesOpen_keys_sub {st : CacheState} {n k : Str}
    (h : k ∈ cachesKeys st) : k ∈ cachesKeys (cachesOpen st n).1 := by
  unfold cachesOpen
  by_cases hm : n ∈ cachesKeys st
  · rw [if_pos hm]; exact h
  · rw [if_neg hm]
    unfold cachesKeys at h ⊢
    simp only [List.map_append, List.mem_append]
    exact Or.inl h

/-- Opening an existing cache is a silent no-op. -/
theorem cachesOpen_of_mem {st : CacheState} {n : Str}
    (h : n ∈ cachesKeys st) : cachesOpen st n = (st, []) := by
  unfold cachesOpen
  rw [if_pos h]

/-- Every key surviving garbage collection carries the prefix. -/
theorem deleteNonMatching_keys_pfx {st : CacheState} {pfx k : Str}
    (h : k ∈ cachesKeys (deleteNonMatching st pfx).1) :
    pfx.isPrefixOf k = true ∧ k ∈ cachesKeys st := by
  unfold deleteNonMatching at h
  unfold cachesKeys at h ⊢
  simp only [List.mem_map] at h
  rcases h with ⟨e, he, rfl⟩
  have := List.of_mem_filter he
  exact ⟨this, List.mem_map_of_mem _ (List.mem_of_mem_filter he)⟩

/-- Every prefixed key survives garbage collection. -/
theorem deleteNonMatching_mem {st : CacheState} {pfx k : Str}
    (hk : k ∈ cachesKeys st) (hp : pfx.isPrefixOf k = true) :
    k ∈ cachesKeys (deleteNonMatching st pfx).1 := by
  unfold deleteNonMatching
  unfold cachesKeys at hk ⊢
  simp only [List.mem_map] at hk
  rcases hk with ⟨e, he, rfl⟩
  exact List.mem_map_of_mem _ (List.mem_filter_of_mem he hp)

/-- Garbage collection deletes nothing when every key is prefixed. -/
theorem deleteNonMatching_ops_empty {st : CacheState} {pfx : Str}
    (h : ∀ k ∈ cachesKeys st, pfx.isPrefixOf k = true) :
    (deleteNonMatching st pfx).2 = [] := by
  unfold deleteNonMatching
  dsimp only
  rw [List.filter_eq_nil_iff.mpr, List.map_nil]
  intro k hk
  simp [h k hk]

/-- The version prefix starts both role names. -/
theorem pfx_isPrefixOf_roleNames (v : Str) :
    (CACHE_PFX ++ v).isPrefixOf (fundName v) = true ∧
      (CACHE_PFX ++ v).isPrefixOf (pagesName v) = true := by
  constructor
  · rw [List.isPrefixOf_iff_prefix, fundName, List.append_assoc]
    exact List.prefix_append _ _
  · rw [List.isPrefixOf_iff_prefix, pagesName, List.append_assoc]
    exact List.prefix_append _ _

/-- After the update path every namespace name carries the new version's
prefix. -/
theorem updateApply_keys_all_prefixed (m : Manifest) (net : Net) (st : CacheState) :
    ∀ k ∈ cachesKeys (updateApply m net st).2.1,
      (CACHE_PFX ++ m.version).isPrefixOf k = true := by
  intro k hk
  exact (deleteNonMatching_keys_pfx hk).1

/-- After the update path both role namespaces of the new version exist. -/
theorem updateApply_fund_pages_mem (m : Manifest) (net : Net) (st : CacheState) :
    fundName m.version ∈ cachesKeys (updateApply m net st).2.1 ∧
      pagesName m.version ∈ cachesKeys (updateApply m net st).2.1 := by
  unfold updateApply
  dsimp only
  constructor
  · apply deleteNonMatching_mem _ (pfx_isPrefixOf_roleNames m.version).1
    apply cachesOpen_keys_sub
    rw [assetLoop_keys]
    exact cachesOpen_mem_keys st _
  · apply deleteNonMatching_mem _ (pfx_isPrefixOf_roleNames m.version).2
    exact cachesOpen_mem_keys _ _

/-- On a store that already holds both role namespaces of the version and
whose every key carries the version prefix, the update path creates and
deletes nothing. -/
theorem updateApply_no_create_delete (m : Manifest) (net : Net) (st : CacheState)
    (hf : fundName m.version ∈ cachesKeys st)
    (hp : pagesName m.version ∈ cachesKeys st)
    (hall : ∀ k ∈ cachesKeys st, (CACHE_PFX ++ m.version).isPrefixOf k = true) :
    (∀ n, CacheOp.created n ∉ (updateApply m net st).2.2) ∧
      (∀ n, CacheOp.deleted n ∉ (updateApply m net st).2.2) := by
  unfold updateApply
  dsimp only
  rw [cachesOpen_of_mem hf]
  dsimp only
  have hkeys : cachesKeys (assetLoop net (fundName m.version)
      (m.assets.map urlOfJSVal) st).1 = cachesKeys st := assetLoop_keys _ _ _ _
  rw [cachesOpen_of_mem (by rw [hkeys]; exact hp)]
  dsimp only
  rw [deleteNonMatching_ops_empty (by rw [hkeys]; exact hall)]
  constructor
  · intro n hmem
    simp only [List.nil_append, List.append_nil] at hmem
    rcases assetLoop_ops net _ _ _ _ hmem with ⟨a, b, hab⟩
    exact absurd hab (by simp)
  · intro n hmem
    simp only [List.nil_append, List.append_nil] at hmem
    rcases assetLoop_ops net _ _ _ _ hmem with ⟨a, b, hab⟩
    exact absurd hab (by simp)

/-- C7: (1) when the remote manifest version equals the locally resolved
version, the Update Checker returns `updated: false`, leaves the store
untouched and performs no cache operation at all; (2) hence after any
completed run, a second run against the unchanged remote manifest
performs zero namespace creations and zero namespace deletions. -/
theorem C7_idempotent_no_op_update (loc : Loc) (net : Net) (st : CacheState) :
    (∀ m, fetchRemoteAssetList loc net = .ok m →
      getHighestCachedVersion (cachesKeys st) = some m.version →
      checkRemoteAssetListAndUpdateIfNeeded loc net st =
        .ok (⟨false, none⟩, st, [])) ∧
    (∀ r1 st1 ops1,
      checkRemoteAssetListAndUpdateIfNeeded loc net st = .ok (r1, st1, ops1) →
      ∃ r2 st2 ops2,
        checkRemoteAssetListAndUpdateIfNeeded loc net st1 = .ok (r2, st2, ops2) ∧
          (∀ n, CacheOp.created n ∉ ops2) ∧ (∀ n, CacheOp.deleted n ∉ ops2)) := by
  constructor
  · intro m hm hv
    unfold checkRemoteAssetListAndUpdateIfNeeded
    rw [hm]
    dsimp only
    rw [if_pos hv]
  · intro r1 st1 ops1 h1
    unfold checkRemoteAssetListAndUpdateIfNeeded at h1 ⊢
    cases hm : fetchRemoteAssetList loc net with
    | error e => rw [hm] at h1; exact absurd h1 (by simp)
    | ok m =>
      rw [hm] at h1
      dsimp only at h1 ⊢
      by_cases hv : getHighestCachedVersion (cachesKeys st) = some m.version
      · rw [if_pos hv] at h1
        have hst : st1 = st := by
          cases h1
          rfl
        subst hst
        rw [if_pos hv]
        exact ⟨_, _, _, rfl, by simp, by simp⟩
      · rw [if_neg hv] at h1
        have hst : st1 = (updateApply m net st).2.1 := by
          cases h1
          rfl
        subst hst
        by_cases hv2 : getHighestCachedVersion
            (cachesKeys (updateApply m net st).2.1) = some m.version
        · rw [if_pos hv2]
          exact ⟨_, _, _, rfl, by simp, by simp⟩
        · rw [if_neg hv2]
          have hmem := updateApply_fund_pages_mem m net st
          have hnc := updateApply_no_create_delete m net (updateApply m net st).2.1
            hmem.1 hmem.2 (updateApply_keys_all_prefixed m net st)
          exact ⟨_, _, _, rfl, hnc.1, hnc.2⟩

/-- C1 (the code, evaluated at the failing input): a successful
`updated: true` run of the Update Checker against remote version `1`,
starting from a store holding version `1.2` (the remote version is a
strict prefix of it), finishes with the `1.2` fundamentals namespace
still enumerable — its version component differs from the new remote
version, refuting the single-version invariant: the deletion filter
keeps every name that merely string-starts with `prefix + version`. -/
theorem C1_stale_prefix_version_survives :
    checkRemoteAssetListAndUpdateIfNeeded loc0 netC1 stC1 =
      .ok (⟨true, some ("1".toList)⟩,
        [(fundName ("1.2".toList), []),
         (fundName ("1".toList), []),
         (pagesName ("1".toList), [])],
        [CacheOp.created (fundName ("1".toList)),
         CacheOp.created (pagesName ("1".toList))]) ∧
      fundName ("1.2".toList) ∈ cachesKeys
        [(fundName ("1.2".toList), []),
         (fundName ("1".toList), []),
         (pagesName ("1".toList), [])] ∧
      extractFundVersion (fundName ("1.2".toList)) = some ("1.2".toList) ∧
      ("1.2".toList : Str) ≠ ("1".toList : Str) := by
  refine ⟨by rfl, by decide, by decide, by decide⟩

/-- Witness for C7: a first run from the empty store installs version 1;
the second run against the unchanged remote creates and deletes no
namespace. -/
theorem C7_idempotent_no_op_update_witness :
    ∃ r2 st2 ops2,
      checkRemoteAssetListAndUpdateIfNeeded loc0 netC1
          [(fundName ("1".toList), []), (pagesName ("1".toList), [])] =
        .ok (r2, st2, ops2) ∧
        (∀ n, CacheOp.created n ∉ ops2) ∧ (∀ n, CacheOp.deleted n ∉ ops2) :=
  (C7_idempotent_no_op_update loc0 netC1 []).2
    ⟨true, some ("1".toList)⟩
    [(fundName ("1".toList), []), (pagesName ("1".toList), [])]
    [CacheOp.created (fundName ("1".toList)),
     CacheOp.created (pagesName ("1".toList))]
    (by rfl)

/-- C4 counterexample: on a well-formed manifest listing `a.js` twice the
fetcher returns the normalized asset list with the duplicate retained —
`fetchRemoteAssetList` performs no deduplication (only the installer
dedupes, after merging in the app shell). -/
theorem C4_counterexample_duplicates_kept :
    parseAssetList loc0 dupManifestText =
      .ok { version := "2025".toList,
            assets := [JSVal.str ("https://example.test/cadoku/a.js".toList),
                       JSVal.str ("https://example.test/cadoku/a.js".toList)] } ∧
      ¬ ([JSVal.str ("https://example.test/cadoku/a.js".toList),
          JSVal.str ("https://example.test/cadoku/a.js".toList)] : List JSVal).Nodup := by
  refine ⟨by rfl, by decide⟩

end SW

